import Mathlib

/-!
Verification of the employee/department/project/company model of Lab_5.

Shallow embedding conventions:
* Python exceptions are modelled by `Except Err`; the distinct exception classes of
  `src/utils/exceptions.py` together with the built-in `ValueError` / `TypeError` /
  `KeyError` / `AttributeError` become constructors of `Err`.
* Python `float` money amounts are modelled as rationals (`ℚ`); `int` ids as `Int`.
* Python object identity (used by `in` checks on classes that do not override
  `__eq__`, i.e. `Department` and `Project`) is modelled by an explicit `ref : Nat`
  field; freshly constructed objects receive fresh refs.
* `Employee.__eq__` compares ids, so `in` / `remove` on employee lists work by id.
-/

namespace Lab5

/-- Exception kinds raised by the code: the custom exceptions of
`src/utils/exceptions.py` plus the Python built-ins the code raises. -/
inductive Err where
  | valueError
  | typeError
  | keyError
  | attributeError
  | employeeNotFound
  | departmentNotFound
  | projectNotFound
  | duplicateId
  | invalidStatus
  deriving DecidableEq, Repr

/-- Python `not value.strip()` for a string: true iff every character is whitespace
(including the empty string). -/
def isBlank (s : String) : Bool := s.data.all Char.isWhitespace

/-- The employee hierarchy: `Employee` (src/core/employee.py) and its three
subclasses `Manager`, `Developer`, `Salesperson` (src/employees/). -/
inductive Emp where
  | employee (id : Int) (name department : String) (baseSalary : ℚ)
  | manager (id : Int) (name department : String) (baseSalary bonus : ℚ)
  | developer (id : Int) (name department : String) (baseSalary : ℚ)
      (techStack : List String) (seniorityLevel : String)
  | salesperson (id : Int) (name department : String)
      (baseSalary commissionRate salesVolume : ℚ)
  deriving DecidableEq, Repr

namespace Emp

/-- The `id` property (shared by all variants). -/
def id : Emp → Int
  | .employee i _ _ _ => i
  | .manager i _ _ _ _ => i
  | .developer i _ _ _ _ _ => i
  | .salesperson i _ _ _ _ _ => i

/-- The `name` property. -/
def name : Emp → String
  | .employee _ n _ _ => n
  | .manager _ n _ _ _ => n
  | .developer _ n _ _ _ _ => n
  | .salesperson _ n _ _ _ _ => n

/-- The `department` property (an informational string, not a relation). -/
def department : Emp → String
  | .employee _ _ d _ => d
  | .manager _ _ d _ _ => d
  | .developer _ _ d _ _ _ => d
  | .salesperson _ _ d _ _ _ => d

/-- The `base_salary` property. -/
def baseSalary : Emp → ℚ
  | .employee _ _ _ b => b
  | .manager _ _ _ b _ => b
  | .developer _ _ _ b _ _ => b
  | .salesperson _ _ _ b _ _ => b

/-- Python `employee.__class__.__name__`, also the `type` tag used by `to_dict`. -/
def tag : Emp → String
  | .employee _ _ _ _ => "Employee"
  | .manager _ _ _ _ _ => "Manager"
  | .developer _ _ _ _ _ _ => "Developer"
  | .salesperson _ _ _ _ _ _ => "Salesperson"

/-- Manager-only `bonus` attribute, `none` on other variants. -/
def bonusOf : Emp → Option ℚ
  | .manager _ _ _ _ bo => some bo
  | _ => none

/-- Developer-only `tech_stack` attribute. -/
def techOf : Emp → Option (List String)
  | .developer _ _ _ _ ts _ => some ts
  | _ => none

/-- Developer-only `seniority_level` attribute. -/
def seniorityOf : Emp → Option String
  | .developer _ _ _ _ _ lvl => some lvl
  | _ => none

/-- Salesperson-only `commission_rate` attribute. -/
def rateOf : Emp → Option ℚ
  | .salesperson _ _ _ _ r _ => some r
  | _ => none

/-- Salesperson-only `sales_volume` attribute. -/
def volumeOf : Emp → Option ℚ
  | .salesperson _ _ _ _ _ v => some v
  | _ => none

/-- All observable fields of an employee, bundled: variant tag, id, name,
department, base salary, and the five variant-specific attributes. -/
def fields (e : Emp) :
    String × Int × String × String × ℚ × Option ℚ × Option (List String) ×
      Option String × Option ℚ × Option ℚ :=
  (e.tag, e.id, e.name, e.department, e.baseSalary,
    e.bonusOf, e.techOf, e.seniorityOf, e.rateOf, e.volumeOf)

end Emp

/-- The `Developer.SENIORITY_COEFFICIENTS` class dictionary. -/
def SENIORITY_COEFFICIENTS : List (String × ℚ) :=
  [("junior", 1), ("middle", 3/2), ("senior", 2)]

namespace Emp

/-- The polymorphic `calculate_salary`.  A `Developer` whose level is missing from
`SENIORITY_COEFFICIENTS` would raise `KeyError` on the dictionary access (validated
construction makes this unreachable). -/
def calculateSalary : Emp → Except Err ℚ
  | .employee _ _ _ b => .ok b
  | .manager _ _ _ b bo => .ok (b + bo)
  | .developer _ _ _ b _ lvl =>
    match List.lookup lvl SENIORITY_COEFFICIENTS with
    | some k => .ok (b * k)
    | none => .error .keyError
  | .salesperson _ _ _ b r v => .ok (b + v * r)

/-- The `Employee.__eq__` comparison: ids only, across variants. -/
def eqById (a b : Emp) : Bool := a.id == b.id

/-- The `Employee.__lt__` comparison: computed salaries, not ids. -/
def ltBySalary (a b : Emp) : Except Err Bool := do
  let sa ← a.calculateSalary
  let sb ← b.calculateSalary
  pure (decide (sa < sb))

/-- Replace only the `id` payload of a variant. -/
def withId : Emp → Int → Emp
  | .employee _ n d b, v => .employee v n d b
  | .manager _ n d b bo, v => .manager v n d b bo
  | .developer _ n d b ts l, v => .developer v n d b ts l
  | .salesperson _ n d b r vol, v => .salesperson v n d b r vol

/-- Replace only the `name` payload of a variant. -/
def withName : Emp → String → Emp
  | .employee i _ d b, v => .employee i v d b
  | .manager i _ d b bo, v => .manager i v d b bo
  | .developer i _ d b ts l, v => .developer i v d b ts l
  | .salesperson i _ d b r vol, v => .salesperson i v d b r vol

/-- Replace only the `department` payload of a variant. -/
def withDepartment : Emp → String → Emp
  | .employee i n _ b, v => .employee i n v b
  | .manager i n _ b bo, v => .manager i n v b bo
  | .developer i n _ b ts l, v => .developer i n v b ts l
  | .salesperson i n _ b r vol, v => .salesperson i n v b r vol

/-- Replace only the `base_salary` payload of a variant. -/
def withBaseSalary : Emp → ℚ → Emp
  | .employee i n d _, v => .employee i n d v
  | .manager i n d _ bo, v => .manager i n d v bo
  | .developer i n d _ ts l, v => .developer i n d v ts l
  | .salesperson i n d _ r vol, v => .salesperson i n d v r vol

/-- The `id` property setter: `_validate_id` then assign. -/
def setId (e : Emp) (v : Int) : Except Err Emp :=
  if v ≤ 0 then .error .valueError else .ok (e.withId v)

/-- The `name` property setter: `_validate_name` then assign. -/
def setName (e : Emp) (v : String) : Except Err Emp :=
  if isBlank v then .error .valueError else .ok (e.withName v)

/-- The `department` property setter. -/
def setDepartment (e : Emp) (v : String) : Except Err Emp :=
  if isBlank v then .error .valueError else .ok (e.withDepartment v)

/-- The `base_salary` property setter: `_validate_base_salary` then assign. -/
def setBaseSalary (e : Emp) (v : ℚ) : Except Err Emp :=
  if v < 0 then .error .valueError else .ok (e.withBaseSalary v)

/-- The `Manager.bonus` property setter.  The property exists only on `Manager`;
the other branches are never exercised by the specification. -/
def setBonus : Emp → ℚ → Except Err Emp
  | .manager i n d b _, v =>
    if v < 0 then .error .valueError else .ok (.manager i n d b v)
  | _, _ => .error .attributeError

/-- The `Developer.seniority_level` property setter. -/
def setSeniorityLevel : Emp → String → Except Err Emp
  | .developer i n d b ts _, v =>
    if (List.lookup v SENIORITY_COEFFICIENTS).isNone then .error .valueError
    else .ok (.developer i n d b ts v)
  | _, _ => .error .attributeError

/-- The `Salesperson.commission_rate` property setter. -/
def setCommissionRate : Emp → ℚ → Except Err Emp
  | .salesperson i n d b _ vol, v =>
    if v < 0 ∨ 1 < v then .error .valueError else .ok (.salesperson i n d b v vol)
  | _, _ => .error .attributeError

/-- The `Salesperson.sales_volume` property setter. -/
def setSalesVolume : Emp → ℚ → Except Err Emp
  | .salesperson i n d b r _, v =>
    if v < 0 then .error .valueError else .ok (.salesperson i n d b r v)
  | _, _ => .error .attributeError

end Emp

/-- Validation shared by `Employee.__init__`: `_validate_id`, `_validate_name`,
`_validate_base_salary`, in that order. -/
def mkEmployeeBase (i : Int) (n _d : String) (b : ℚ) : Except Err Unit :=
  if i ≤ 0 then .error .valueError
  else if isBlank n then .error .valueError
  else if b < 0 then .error .valueError
  else .ok ()

/-- The `Employee` constructor. -/
def mkEmployee (i : Int) (n d : String) (b : ℚ) : Except Err Emp := do
  mkEmployeeBase i n d b
  pure (.employee i n d b)

/-- The `Manager` constructor: base validation, then `_validate_bonus`. -/
def mkManager (i : Int) (n d : String) (b bo : ℚ) : Except Err Emp := do
  mkEmployeeBase i n d b
  if bo < 0 then .error .valueError else pure (.manager i n d b bo)

/-- The `Developer` constructor: base validation, then `_validate_seniority_level`,
then `_validate_tech_stack`. -/
def mkDeveloper (i : Int) (n d : String) (b : ℚ) (ts : List String) (lvl : String) :
    Except Err Emp := do
  mkEmployeeBase i n d b
  if (List.lookup lvl SENIORITY_COEFFICIENTS).isNone then .error .valueError
  else if ts.any isBlank then .error .valueError
  else pure (.developer i n d b ts lvl)

/-- The `Salesperson` constructor: base validation, then `_validate_commission_rate`,
then `_validate_sales_volume`. -/
def mkSalesperson (i : Int) (n d : String) (b r v : ℚ) : Except Err Emp := do
  mkEmployeeBase i n d b
  if r < 0 ∨ 1 < r then .error .valueError
  else if v < 0 then .error .valueError
  else pure (.salesperson i n d b r v)

/-- A serialized employee dictionary (the `EmployeeRecord` of the JSON file).
`id` is optional because `load_from_json` reads team records with `.get("id")`;
the remaining base fields are always present in records this code writes. -/
structure EmpRecord where
  type : String
  id : Option Int
  name : String
  department : String
  baseSalary : ℚ
  bonus : Option ℚ
  techStack : Option (List String)
  seniorityLevel : Option String
  commissionRate : Option ℚ
  salesVolume : Option ℚ
  deriving DecidableEq, Repr

/-- The per-variant `to_dict` serialization. -/
def Emp.toDict : Emp → EmpRecord
  | .employee i n d b =>
    ⟨"Employee", some i, n, d, b, none, none, none, none, none⟩
  | .manager i n d b bo =>
    ⟨"Manager", some i, n, d, b, some bo, none, none, none, none⟩
  | .developer i n d b ts lvl =>
    ⟨"Developer", some i, n, d, b, none, some ts, some lvl, none, none⟩
  | .salesperson i n d b r v =>
    ⟨"Salesperson", some i, n, d, b, none, none, none, some r, some v⟩

/-- `Department._employee_from_dict`: dispatch on the `type` tag, defaulting the
optional variant fields; every branch reads `data["id"]`, so a missing id raises
`KeyError`. -/
def empFromDict (data : EmpRecord) : Except Err Emp :=
  match data.id with
  | none => .error .keyError
  | some i =>
    if data.type == "Manager" then
      mkManager i data.name data.department data.baseSalary (data.bonus.getD 0)
    else if data.type == "Developer" then
      mkDeveloper i data.name data.department data.baseSalary
        (data.techStack.getD []) (data.seniorityLevel.getD "junior")
    else if data.type == "Salesperson" then
      mkSalesperson i data.name data.department data.baseSalary
        (data.commissionRate.getD 0) (data.salesVolume.getD 0)
    else
      mkEmployee i data.name data.department data.baseSalary

/-- Construction-validation invariant of employees: exactly the checks the
variant constructors perform, so it holds of every constructed employee. -/
def Emp.validB : Emp → Bool
  | .employee i n d b => 0 < i && !isBlank n && !isBlank d && 0 ≤ b
  | .manager i n d b bo => 0 < i && !isBlank n && !isBlank d && 0 ≤ b && 0 ≤ bo
  | .developer i n d b ts lvl =>
    0 < i && !isBlank n && !isBlank d && 0 ≤ b &&
      (List.lookup lvl SENIORITY_COEFFICIENTS).isSome && !ts.any isBlank
  | .salesperson i n d b r v =>
    0 < i && !isBlank n && !isBlank d && 0 ≤ b && 0 ≤ r && r ≤ 1 && 0 ≤ v

end Lab5

namespace Lab5

/-! ## Dates: `datetime.strptime(s, "%Y-%m-%d")` and `strftime("%Y-%m-%d")` -/

/-- A calendar date as stored in `Project.__deadline` (the time part is always
midnight and is omitted). -/
structure Date where
  year : Nat
  month : Nat
  day : Nat
  deriving DecidableEq, Repr

/-- Gregorian leap-year rule used by `datetime`. -/
def isLeapYear (y : Nat) : Bool :=
  (y % 4 == 0 && y % 100 != 0) || (y % 400 == 0)

/-- Number of days of a month, as enforced by the `datetime` constructor. -/
def daysInMonth (y m : Nat) : Nat :=
  if m == 2 then (if isLeapYear y then 29 else 28)
  else if m == 4 || m == 6 || m == 9 || m == 11 then 30
  else 31

/-- The dates `datetime` can represent (year 1..9999) with a valid month/day. -/
def Date.validB (d : Date) : Bool :=
  1 ≤ d.year && d.year ≤ 9999 && 1 ≤ d.month && d.month ≤ 12 &&
    1 ≤ d.day && d.day ≤ daysInMonth d.year d.month

/-- Character of a decimal digit value. -/
def digitToChar (d : Nat) : Char := Char.ofNat (48 + d)

/-- Decimal digit value of a character. -/
def charToDigit (c : Char) : Nat := c.toNat - 48

/-- Big-endian decimal digits, by fuelled division (fuel `n` is always enough
because `n / 10 < n` for `n > 0`). -/
def natDigitsBEAux : Nat → Nat → List Nat
  | 0, _ => []
  | fuel + 1, n => if n == 0 then [] else natDigitsBEAux fuel (n / 10) ++ [n % 10]

/-- Big-endian decimal digits of a number (empty for 0). -/
def natDigitsBE (n : Nat) : List Nat := natDigitsBEAux n n

/-- Decimal rendering of `n` zero-padded to width `w` (strftime field rendering). -/
def printNatPad (w n : Nat) : List Char :=
  let ds := natDigitsBE n
  (List.replicate (w - ds.length) 0 ++ ds).map digitToChar

/-- Value of a nonempty all-digit character group (a strptime field match). -/
def parseNatDigits (cs : List Char) : Option Nat :=
  if cs.isEmpty then none
  else if cs.all Char.isDigit then
    some (Nat.ofDigits 10 ((cs.map charToDigit).reverse))
  else none

/-- `deadline.strftime("%Y-%m-%d")` as a character list. -/
def printDateChars (d : Date) : List Char :=
  printNatPad 4 d.year ++ '-' :: (printNatPad 2 d.month ++ '-' :: printNatPad 2 d.day)

/-- `deadline.strftime("%Y-%m-%d")`. -/
def printDate (d : Date) : String := String.mk (printDateChars d)

/-- `datetime.strptime(s, "%Y-%m-%d")`: `%Y` matches exactly four digits, `%m` and
`%d` one or two, the whole string must be consumed, and the resulting calendar
date must be constructible (`datetime` range checks). -/
def parseDateChars (cs : List Char) : Option Date :=
  let ys := cs.takeWhile (fun c => c ≠ '-')
  match cs.dropWhile (fun c => c ≠ '-') with
  | [] => none
  | _ :: rest =>
    -- a nonempty `dropWhile (· ≠ '-')` result necessarily starts with `'-'`,
    -- the literal separator `strptime` consumes here
    let ms := rest.takeWhile (fun c => c ≠ '-')
    match rest.dropWhile (fun c => c ≠ '-') with
    | [] => none
    | _ :: ds =>
      if ds.any (fun c => c == '-') then none
      else if ys.length == 4 && 1 ≤ ms.length && ms.length ≤ 2 &&
          1 ≤ ds.length && ds.length ≤ 2 then
        match parseNatDigits ys, parseNatDigits ms, parseNatDigits ds with
        | some y, some m, some dd =>
          if 1 ≤ y && y ≤ 9999 && 1 ≤ m && m ≤ 12 && 1 ≤ dd &&
              dd ≤ daysInMonth y m then
            some ⟨y, m, dd⟩
          else none
        | _, _, _ => none
      else none

/-- String-level `strptime` wrapper. -/
def parseDate (s : String) : Option Date := parseDateChars s.data

/-! ## Department (src/core/department.py) -/

/-- A department: `ref` models Python object identity (`Department` overrides
neither `__eq__` nor `__hash__`, so membership checks compare identity). -/
structure Department where
  ref : Nat
  name : String
  employees : List Emp
  deriving DecidableEq, Repr

namespace Department

/-- `find_employee_by_id`: first employee with a matching id. -/
def findEmployeeById (d : Department) (i : Int) : Option Emp :=
  d.employees.find? (fun e => e.id == i)

/-- `add_employee`: rejects when an equal (same-id) employee is already present,
else appends. -/
def addEmployee (d : Department) (e : Emp) : Except Err Department :=
  if d.employees.any (fun x => x.eqById e) then .error .valueError
  else .ok { d with employees := d.employees ++ [e] }

end Department

/-- `list.remove(employee)` given `Employee.__eq__`: drop the first element whose
id matches. -/
def removeFirstById : List Emp → Int → List Emp
  | [], _ => []
  | x :: xs, i => if x.id == i then xs else x :: removeFirstById xs i

/-- `remove_employee`: look up by id, fail when absent, else remove the found
(first-matching) employee. -/
def Department.removeEmployee (d : Department) (i : Int) : Except Err Department :=
  match d.findEmployeeById i with
  | none => .error .valueError
  | some _ => .ok { d with employees := removeFirstById d.employees i }

/-! ## Project (src/core/project.py) -/

/-- `Project.VALID_STATUSES`. -/
def VALID_STATUSES : List String := ["planning", "active", "completed", "cancelled"]

/-- A project; `ref` models object identity, `team` holds borrowed employee
references (modelled by value — every claim reads only ids and fields). -/
structure Project where
  ref : Nat
  projectId : Int
  name : String
  description : String
  deadline : Date
  status : String
  team : List Emp
  deriving DecidableEq, Repr

/-- The `Project` constructor: `_validate_project_id`, `_validate_name`,
`_validate_deadline` (strptime), `_validate_status`, then store the parsed date
and an empty team. -/
def mkProject (ref : Nat) (projectId : Int) (name description deadline status : String) :
    Except Err Project :=
  if projectId ≤ 0 then .error .valueError
  else if isBlank name then .error .valueError
  else
    match parseDate deadline with
    | none => .error .valueError
    | some dt =>
      if VALID_STATUSES.contains status then
        .ok ⟨ref, projectId, name, description, dt, status, []⟩
      else .error .invalidStatus

namespace Project

/-- `find_team_member`: first team member with a matching id. -/
def findTeamMember (p : Project) (i : Int) : Option Emp :=
  p.team.find? (fun e => e.id == i)

/-- `add_team_member`: rejects when a same-id member is already in the team. -/
def addTeamMember (p : Project) (e : Emp) : Except Err Project :=
  if p.team.any (fun x => x.eqById e) then .error .valueError
  else .ok { p with team := p.team ++ [e] }

end Project

/-! ## Company (src/core/company.py) -/

/-- A company aggregating departments and projects. -/
structure Company where
  name : String
  departments : List Department
  projects : List Project
  deriving DecidableEq, Repr

/-- The `Company` constructor (validates the name). -/
def mkCompany (name : String) : Except Err Company :=
  if isBlank name then .error .valueError else .ok ⟨name, [], []⟩

namespace Company

/-- `add_department`: `department in self.__departments` compares object identity
(no `__eq__` on `Department`), so only re-adding the very same object fails. -/
def addDepartment (c : Company) (d : Department) : Except Err Company :=
  if c.departments.any (fun x => x.ref == d.ref) then .error .valueError
  else .ok { c with departments := c.departments ++ [d] }

/-- `_find_department_by_name`: first department with the given name. -/
def findDepartmentByName (c : Company) (nm : String) : Option Department :=
  c.departments.find? (fun d => d.name == nm)

/-- `_find_project_by_id`: first project with the given id. -/
def findProjectById (c : Company) (pid : Int) : Option Project :=
  c.projects.find? (fun p => p.projectId == pid)

/-- `add_project`: identity membership check, then duplicate-id check. -/
def addProject (c : Company) (p : Project) : Except Err Company :=
  if c.projects.any (fun x => x.ref == p.ref) then .error .valueError
  else if (c.findProjectById p.projectId).isSome then .error .duplicateId
  else .ok { c with projects := c.projects ++ [p] }

end Company

/-- `find_employee_by_id` over a department list: first department containing the
id wins. -/
def findEmpInDepts : List Department → Int → Option Emp
  | [], _ => none
  | d :: ds, i =>
    match d.findEmployeeById i with
    | some e => some e
    | none => findEmpInDepts ds i

/-- `Company.find_employee_by_id`. -/
def Company.findEmployeeById (c : Company) (i : Int) : Option Emp :=
  findEmpInDepts c.departments i

/-- In-place mutation of the first department with a given name (the object
`_find_department_by_name` returned and the caller then mutates). -/
def updateFirstNamed : List Department → String → Department → List Department
  | [], _, _ => []
  | d :: rest, nm, d1 =>
    if d.name == nm then d1 :: rest else d :: updateFirstNamed rest nm d1

/-- In-place mutation of the first project with a given id. -/
def updateFirstProjById : List Project → Int → Project → List Project
  | [], _, _ => []
  | p :: rest, pid, p1 =>
    if p.projectId == pid then p1 :: rest else p :: updateFirstProjById rest pid p1

namespace Company

/-- `transfer_employee`.  Returns the raised/returned result together with the
company state after the call, because the final `add_employee` can raise after
the source department was already mutated. -/
def transferEmployee (c : Company) (empId : Int) (fromDept toDept : String) :
    Except Err Bool × Company :=
  match c.findDepartmentByName fromDept with
  | none => (.error .departmentNotFound, c)
  | some src =>
    match c.findDepartmentByName toDept with
    | none => (.error .departmentNotFound, c)
    | some _ =>
      match src.findEmployeeById empId with
      | none => (.error .employeeNotFound, c)
      | some emp =>
        let src1 : Department :=
          { src with employees := removeFirstById src.employees empId }
        let c1 : Company :=
          { c with departments := updateFirstNamed c.departments fromDept src1 }
        match c1.findDepartmentByName toDept with
        | none => (.error .departmentNotFound, c1)
        | some tgt =>
          match tgt.addEmployee emp with
          | .error e => (.error e, c1)
          | .ok tgt1 =>
            (.ok true,
              { c1 with departments := updateFirstNamed c1.departments toDept tgt1 })

/-- `assign_employee_to_project`: company-wide employee lookup, project lookup,
then `add_team_member` (which may raise on a duplicate, before any mutation). -/
def assignEmployeeToProject (c : Company) (empId pid : Int) : Except Err Company :=
  match c.findEmployeeById empId with
  | none => .error .employeeNotFound
  | some emp =>
    match c.findProjectById pid with
    | none => .error .projectNotFound
    | some proj =>
      match proj.addTeamMember emp with
      | .error e => .error e
      | .ok proj1 => .ok { c with projects := updateFirstProjById c.projects pid proj1 }

end Company

/-- Keys of the counting dictionary in insertion order (Python dicts iterate in
insertion order): the first occurrence of each id. -/
def firstOccAux (acc : List Int) : List Int → List Int
  | [] => acc
  | i :: is => if acc.contains i then firstOccAux acc is else firstOccAux (acc ++ [i]) is

/-- All team-member ids across all projects, in traversal order. -/
def teamIdsAll (c : Company) : List Int :=
  (c.projects.map (fun p => p.team.map Emp.id)).flatten

/-- `find_overloaded_employees`: count id occurrences across all project teams,
then for each id occurring more than once return the company-wide lookup result
(dropping ids that resolve to no department employee). -/
def Company.findOverloadedEmployees (c : Company) : List Emp :=
  (firstOccAux [] (teamIdsAll c)).filterMap
    (fun i => if 1 < (teamIdsAll c).count i then c.findEmployeeById i else none)

/-- `check_employee_availability`: available iff the id is found in the teams of
fewer than two projects. -/
def Company.checkEmployeeAvailability (c : Company) (i : Int) : Bool :=
  (c.projects.countP (fun p => (p.findTeamMember i).isSome)) < 2

/-- `get_all_employees`: union of all departments, in order. -/
def Company.getAllEmployees (c : Company) : List Emp :=
  (c.departments.map (fun d => d.employees)).flatten

end Lab5

namespace Lab5

/-! ## Whole-graph serialization (save_to_json / load_from_json) -/

/-- A serialized department: `{name, employees}`. -/
structure DeptRecord where
  name : String
  employees : List EmpRecord
  deriving DecidableEq, Repr

/-- A serialized project: `Project.to_dict` output.  `status` is read back with
`.get("status", "planning")`, hence optional. -/
structure ProjRecord where
  projectId : Int
  name : String
  description : String
  deadline : String
  status : Option String
  team : List EmpRecord
  deriving DecidableEq, Repr

/-- The whole JSON document `{name, departments, projects}`. -/
structure CompanyData where
  name : String
  departments : List DeptRecord
  projects : List ProjRecord
  deriving DecidableEq, Repr

/-- `Company._department_to_dict`. -/
def Department.toDict (d : Department) : DeptRecord :=
  ⟨d.name, d.employees.map Emp.toDict⟩

/-- `Project.to_dict` (team members serialized with their full records). -/
def Project.toDict (p : Project) : ProjRecord :=
  ⟨p.projectId, p.name, p.description, printDate p.deadline, some p.status,
    p.team.map Emp.toDict⟩

/-- `Company.save_to_json` (the dictionary written to the file). -/
def Company.saveToJson (c : Company) : CompanyData :=
  ⟨c.name, c.departments.map Department.toDict, c.projects.map Project.toDict⟩

/-- The employee-loading loop of `Department.load_from_file_dict`. -/
def deptAddEmployees : Department → List EmpRecord → Except Err Department
  | d, [] => .ok d
  | d, r :: rs => do
    let e ← empFromDict r
    let d1 ← d.addEmployee e
    deptAddEmployees d1 rs

/-- `Department.load_from_file_dict`: constructor validation, then re-add every
employee in order (duplicate ids are a hard failure).  `ref` is the fresh
identity of the new object. -/
def Department.loadFromFileDict (ref : Nat) (data : DeptRecord) : Except Err Department :=
  if isBlank data.name then .error .valueError
  else deptAddEmployees ⟨ref, data.name, []⟩ data.employees

/-- `Project.from_dict`: scalar fields only, team left empty. -/
def Project.fromDict (ref : Nat) (data : ProjRecord) : Except Err Project :=
  mkProject ref data.projectId data.name data.description data.deadline
    (data.status.getD "planning")

/-- The department-loading loop of `Company.load_from_json`; `k` numbers the
fresh objects. -/
def loadDepartments : Company → Nat → List DeptRecord → Except Err Company
  | c, _, [] => .ok c
  | c, k, r :: rs => do
    let d ← Department.loadFromFileDict k r
    let c1 ← c.addDepartment d
    loadDepartments c1 (k + 1) rs

/-- One iteration of the team-relinking loop: `emp_data.get("id")` must be truthy
(neither absent nor zero); `EmployeeNotFoundError` and `ProjectNotFoundError`
from `assign_employee_to_project` are suppressed, anything else propagates. -/
def relinkOne (c : Company) (pid : Int) (r : EmpRecord) : Except Err Company :=
  match r.id with
  | none => .ok c
  | some i =>
    if i == 0 then .ok c
    else
      match c.assignEmployeeToProject i pid with
      | .ok c1 => .ok c1
      | .error .employeeNotFound => .ok c
      | .error .projectNotFound => .ok c
      | .error e => .error e

/-- The team-relinking loop over one project record. -/
def relinkTeam : Company → Int → List EmpRecord → Except Err Company
  | c, _, [] => .ok c
  | c, pid, r :: rs => do
    let c1 ← relinkOne c pid r
    relinkTeam c1 pid rs

/-- The project-loading loop of `Company.load_from_json`. -/
def loadProjects : Company → Nat → List ProjRecord → Except Err Company
  | c, _, [] => .ok c
  | c, k, r :: rs => do
    let p ← Project.fromDict k r
    let c1 ← c.addProject p
    let c2 ← relinkTeam c1 p.projectId r.team
    loadProjects c2 (k + 1) rs

/-- `Company.load_from_json`: company shell, then departments, then projects with
team relinking. -/
def Company.loadFromJson (data : CompanyData) : Except Err Company := do
  let c ← mkCompany data.name
  let c1 ← loadDepartments c 0 data.departments
  loadProjects c1 0 data.projects

/-! ## Reachable-state invariants -/

/-- Boolean no-duplicates check on id lists. -/
def nodupB : List Int → Bool
  | [] => true
  | x :: xs => !xs.contains x && nodupB xs

/-- Department invariant: validated name, validated employees, ids unique
(enforced by `add_employee`). -/
def Department.validB (d : Department) : Bool :=
  !isBlank d.name && d.employees.all Emp.validB && nodupB (d.employees.map Emp.id)

/-- Project invariant: constructor validation plus team-id uniqueness (enforced
by `add_team_member`). -/
def Project.validB (p : Project) : Bool :=
  0 < p.projectId && !isBlank p.name && p.deadline.validB &&
    VALID_STATUSES.contains p.status && nodupB (p.team.map Emp.id)

/-- Company invariant: validated name, valid departments and projects, project
ids unique (enforced by `add_project`). -/
def Company.validB (c : Company) : Bool :=
  !isBlank c.name && c.departments.all Department.validB &&
    c.projects.all Project.validB && nodupB (c.projects.map Project.projectId)

/-- Every project team member's id is held by some department of the company. -/
def Company.teamsResolvableB (c : Company) : Bool :=
  c.projects.all fun p => p.team.all fun e =>
    c.departments.any fun d => d.employees.any fun x => x.id == e.id

/-! ## CSV export (export_employees_csv / export_projects_csv) -/

/-- The header row written by `export_employees_csv`. -/
def employeesCsvHeader : List String :=
  ["ID", "Имя", "Отдел", "Тип", "Базовая зарплата", "Итоговая зарплата"]

/-- The header row written by `export_projects_csv`. -/
def projectsCsvHeader : List String :=
  ["ID проекта", "Название", "Статус", "Срок", "Размер команды", "Бюджет команды"]

/-- Decidable equality for `Except`, needed to compare report rows. -/
instance {ε α : Type} [DecidableEq ε] [DecidableEq α] : DecidableEq (Except ε α) := fun x y =>
  match x, y with
  | .ok a, .ok b =>
    if h : a = b then .isTrue (by rw [h]) else .isFalse (by intro hh; cases hh; exact h rfl)
  | .error a, .error b =>
    if h : a = b then .isTrue (by rw [h]) else .isFalse (by intro hh; cases hh; exact h rfl)
  | .ok _, .error _ => .isFalse (by intro hh; cases hh)
  | .error _, .ok _ => .isFalse (by intro hh; cases hh)

/-- One data row of the employees report. -/
structure EmpCsvRow where
  id : Int
  name : String
  department : String
  typeTag : String
  baseSalary : ℚ
  finalSalary : Except Err ℚ
  deriving DecidableEq, Repr

/-- One data row of the projects report; the budget sums the team's computed
salaries. -/
structure ProjCsvRow where
  projectId : Int
  name : String
  status : String
  deadline : String
  teamSize : Nat
  teamBudget : Except Err ℚ
  deriving DecidableEq, Repr

/-- `export_employees_csv`: the header row followed by one row per employee of
the flattened employee list. -/
def Company.exportEmployeesCsv (c : Company) : List String × List EmpCsvRow :=
  (employeesCsvHeader,
    c.getAllEmployees.map fun e =>
      ⟨e.id, e.name, e.department, e.tag, e.baseSalary, e.calculateSalary⟩)

/-- `export_projects_csv`: the header row followed by one row per project. -/
def Company.exportProjectsCsv (c : Company) : List String × List ProjCsvRow :=
  (projectsCsvHeader,
    c.projects.map fun p =>
      ⟨p.projectId, p.name, p.status, printDate p.deadline, p.team.length,
        do pure (List.sum (← p.team.mapM Emp.calculateSalary))⟩)

end Lab5

namespace Lab5

/-! ## C2, C6, C7: salary formulas, equality/ordering, CSV headers -/

/-- C2: for every employee variant, `calculate_salary()` returns exactly the
variant's formula: `base_salary` for a plain Employee, `base_salary + bonus` for
a Manager, `base_salary` times the seniority multiplier (junior 1.0, middle 1.5,
senior 2.0) for a Developer, and `base_salary + sales_volume * commission_rate`
for a Salesperson. -/
theorem calculate_salary_matches_variant_formula :
    ∀ (i : Int) (n d : String) (b bo r v : ℚ) (ts : List String),
      (Emp.employee i n d b).calculateSalary = .ok b ∧
      (Emp.manager i n d b bo).calculateSalary = .ok (b + bo) ∧
      (Emp.developer i n d b ts "junior").calculateSalary = .ok (b * 1) ∧
      (Emp.developer i n d b ts "middle").calculateSalary = .ok (b * (3/2)) ∧
      (Emp.developer i n d b ts "senior").calculateSalary = .ok (b * 2) ∧
      (Emp.salesperson i n d b r v).calculateSalary = .ok (b + v * r) :=
  fun _ _ _ _ _ _ _ _ => ⟨rfl, rfl, rfl, rfl, rfl, rfl⟩

/-- C6: employee equality holds iff the `id` fields are equal (across variants,
ignoring every other field), and the `<` ordering compares computed salaries,
not ids. -/
theorem employee_eq_by_id_and_lt_by_salary :
    (∀ a b : Emp, a.eqById b = true ↔ a.id = b.id) ∧
    (∀ a b : Emp, ∀ sa sb : ℚ, a.calculateSalary = .ok sa → b.calculateSalary = .ok sb →
      a.ltBySalary b = .ok (decide (sa < sb))) := by
  constructor
  · intro a b
    simp [Emp.eqById]
  · intro a b sa sb ha hb
    unfold Emp.ltBySalary
    rw [ha, hb]
    rfl

/-- Witness for C6: a Manager and a plain Employee sharing id 5 compare equal
despite different names and salaries, and ordering follows computed salary. -/
theorem employee_eq_by_id_and_lt_by_salary_witness :
    (Emp.manager 5 "Mia" "D1" 10 1).eqById (Emp.employee 5 "Eve" "D2" 99) = true ∧
    (Emp.employee 1 "a" "b" 3).ltBySalary (Emp.manager 1 "c" "d" 2 2) = .ok true := by
  constructor
  · exact (employee_eq_by_id_and_lt_by_salary.1 _ _).mpr rfl
  · have h4 : (Emp.manager 1 "c" "d" 2 2).calculateSalary = .ok 4 := by
      show Except.ok ((2:ℚ) + 2) = Except.ok 4
      norm_num
    have h := employee_eq_by_id_and_lt_by_salary.2
      (Emp.employee 1 "a" "b" 3) (Emp.manager 1 "c" "d" 2 2) 3 4 rfl h4
    rw [h]
    simp only [Except.ok.injEq]
    exact decide_eq_true (by norm_num)

/-- Counterexample for C7: the header rows the code writes are not the English
`ID,Name,Department,Type,BaseSalary,FinalSalary` /
`ProjectID,Name,Status,Deadline,TeamSize,TeamBudget` rows the claim states. -/
theorem csv_headers_not_english :
    (Company.exportEmployeesCsv ⟨"C", [], []⟩).fst ≠
      ["ID", "Name", "Department", "Type", "BaseSalary", "FinalSalary"] ∧
    (Company.exportProjectsCsv ⟨"C", [], []⟩).fst ≠
      ["ProjectID", "Name", "Status", "Deadline", "TeamSize", "TeamBudget"] := by
  constructor <;> decide

/-- C7 (amended): the first row of the employees report is the Russian header
`ID,Имя,Отдел,Тип,Базовая зарплата,Итоговая зарплата`, and the first row of the
projects report is `ID проекта,Название,Статус,Срок,Размер команды,Бюджет
команды`. -/
theorem csv_headers_are_russian (c : Company) :
    (c.exportEmployeesCsv).fst =
      ["ID", "Имя", "Отдел", "Тип", "Базовая зарплата", "Итоговая зарплата"] ∧
    (c.exportProjectsCsv).fst =
      ["ID проекта", "Название", "Статус", "Срок", "Размер команды", "Бюджет команды"] :=
  ⟨rfl, rfl⟩

end Lab5

namespace Lab5

/-! ## C8: validated setters -/

/-- C8: every mutable employee field setter validates on write: an invalid value
(id ≤ 0, blank string, negative money, commission rate outside 0..1, unknown
seniority level) raises a validation error leaving the object unchanged (the
error is raised before any assignment), and a valid value updates exactly that
field, leaving every other field as it was. -/
theorem setters_validate_and_update_single_field :
    ∀ (e : Emp) (vi : Int) (s : String) (q : ℚ),
      (vi ≤ 0 → e.setId vi = .error .valueError) ∧
      (0 < vi → ∃ e1, e.setId vi = .ok e1 ∧
        e1.fields = (e.tag, vi, e.name, e.department, e.baseSalary,
          e.bonusOf, e.techOf, e.seniorityOf, e.rateOf, e.volumeOf)) ∧
      (isBlank s = true → e.setName s = .error .valueError) ∧
      (isBlank s = false → ∃ e1, e.setName s = .ok e1 ∧
        e1.fields = (e.tag, e.id, s, e.department, e.baseSalary,
          e.bonusOf, e.techOf, e.seniorityOf, e.rateOf, e.volumeOf)) ∧
      (isBlank s = true → e.setDepartment s = .error .valueError) ∧
      (isBlank s = false → ∃ e1, e.setDepartment s = .ok e1 ∧
        e1.fields = (e.tag, e.id, e.name, s, e.baseSalary,
          e.bonusOf, e.techOf, e.seniorityOf, e.rateOf, e.volumeOf)) ∧
      (q < 0 → e.setBaseSalary q = .error .valueError) ∧
      (0 ≤ q → ∃ e1, e.setBaseSalary q = .ok e1 ∧
        e1.fields = (e.tag, e.id, e.name, e.department, q,
          e.bonusOf, e.techOf, e.seniorityOf, e.rateOf, e.volumeOf)) ∧
      (e.tag = "Manager" → q < 0 → e.setBonus q = .error .valueError) ∧
      (e.tag = "Manager" → 0 ≤ q → ∃ e1, e.setBonus q = .ok e1 ∧
        e1.fields = (e.tag, e.id, e.name, e.department, e.baseSalary,
          some q, e.techOf, e.seniorityOf, e.rateOf, e.volumeOf)) ∧
      (e.tag = "Developer" → List.lookup s SENIORITY_COEFFICIENTS = none →
        e.setSeniorityLevel s = .error .valueError) ∧
      (e.tag = "Developer" → (List.lookup s SENIORITY_COEFFICIENTS).isSome →
        ∃ e1, e.setSeniorityLevel s = .ok e1 ∧
        e1.fields = (e.tag, e.id, e.name, e.department, e.baseSalary,
          e.bonusOf, e.techOf, some s, e.rateOf, e.volumeOf)) ∧
      (e.tag = "Salesperson" → (q < 0 ∨ 1 < q) → e.setCommissionRate q = .error .valueError) ∧
      (e.tag = "Salesperson" → 0 ≤ q → q ≤ 1 → ∃ e1, e.setCommissionRate q = .ok e1 ∧
        e1.fields = (e.tag, e.id, e.name, e.department, e.baseSalary,
          e.bonusOf, e.techOf, e.seniorityOf, some q, e.volumeOf)) ∧
      (e.tag = "Salesperson" → q < 0 → e.setSalesVolume q = .error .valueError) ∧
      (e.tag = "Salesperson" → 0 ≤ q → ∃ e1, e.setSalesVolume q = .ok e1 ∧
        e1.fields = (e.tag, e.id, e.name, e.department, e.baseSalary,
          e.bonusOf, e.techOf, e.seniorityOf, e.rateOf, some q)) := by
  intro e vi s q
  refine ⟨?_, ?_, ?_, ?_, ?_, ?_, ?_, ?_, ?_, ?_, ?_, ?_, ?_, ?_, ?_, ?_⟩
  · intro h
    unfold Emp.setId
    rw [if_pos h]
  · intro h
    refine ⟨e.withId vi, ?_, ?_⟩
    · unfold Emp.setId
      rw [if_neg (not_le.mpr h)]
    · cases e <;> rfl
  · intro h
    unfold Emp.setName
    rw [if_pos h]
  · intro h
    refine ⟨e.withName s, ?_, ?_⟩
    · unfold Emp.setName
      rw [if_neg (by simp [h])]
    · cases e <;> rfl
  · intro h
    unfold Emp.setDepartment
    rw [if_pos h]
  · intro h
    refine ⟨e.withDepartment s, ?_, ?_⟩
    · unfold Emp.setDepartment
      rw [if_neg (by simp [h])]
    · cases e <;> rfl
  · intro h
    unfold Emp.setBaseSalary
    rw [if_pos h]
  · intro h
    refine ⟨e.withBaseSalary q, ?_, ?_⟩
    · unfold Emp.setBaseSalary
      rw [if_neg (not_lt.mpr h)]
    · cases e <;> rfl
  · intro htag h
    rcases e with ⟨i, n, d, b⟩ | ⟨i, n, d, b, bo⟩ | ⟨i, n, d, b, ts, l⟩ | ⟨i, n, d, b, r, vol⟩
    · simp [Emp.tag] at htag
    · simp only [Emp.setBonus]
      rw [if_pos h]
    · simp [Emp.tag] at htag
    · simp [Emp.tag] at htag
  · intro htag h
    rcases e with ⟨i, n, d, b⟩ | ⟨i, n, d, b, bo⟩ | ⟨i, n, d, b, ts, l⟩ | ⟨i, n, d, b, r, vol⟩
    · simp [Emp.tag] at htag
    · refine ⟨.manager i n d b q, ?_, rfl⟩
      simp only [Emp.setBonus]
      rw [if_neg (not_lt.mpr h)]
    · simp [Emp.tag] at htag
    · simp [Emp.tag] at htag
  · intro htag h
    rcases e with ⟨i, n, d, b⟩ | ⟨i, n, d, b, bo⟩ | ⟨i, n, d, b, ts, l⟩ | ⟨i, n, d, b, r, vol⟩
    · simp [Emp.tag] at htag
    · simp [Emp.tag] at htag
    · simp only [Emp.setSeniorityLevel]
      rw [if_pos (by simp [h])]
    · simp [Emp.tag] at htag
  · intro htag h
    rcases e with ⟨i, n, d, b⟩ | ⟨i, n, d, b, bo⟩ | ⟨i, n, d, b, ts, l⟩ | ⟨i, n, d, b, r, vol⟩
    · simp [Emp.tag] at htag
    · simp [Emp.tag] at htag
    · refine ⟨.developer i n d b ts s, ?_, rfl⟩
      simp only [Emp.setSeniorityLevel]
      rw [if_neg (by simp only [Option.isNone_iff_eq_none]; simp only [Option.isSome_iff_ne_none] at h; exact h)]
    · simp [Emp.tag] at htag
  · intro htag h
    rcases e with ⟨i, n, d, b⟩ | ⟨i, n, d, b, bo⟩ | ⟨i, n, d, b, ts, l⟩ | ⟨i, n, d, b, r, vol⟩
    · simp [Emp.tag] at htag
    · simp [Emp.tag] at htag
    · simp [Emp.tag] at htag
    · simp only [Emp.setCommissionRate]
      rw [if_pos h]
  · intro htag h1 h2
    rcases e with ⟨i, n, d, b⟩ | ⟨i, n, d, b, bo⟩ | ⟨i, n, d, b, ts, l⟩ | ⟨i, n, d, b, r, vol⟩
    · simp [Emp.tag] at htag
    · simp [Emp.tag] at htag
    · simp [Emp.tag] at htag
    · refine ⟨.salesperson i n d b q vol, ?_, rfl⟩
      simp only [Emp.setCommissionRate]
      rw [if_neg ?_]
      push_neg
      exact ⟨h1, h2⟩
  · intro htag h
    rcases e with ⟨i, n, d, b⟩ | ⟨i, n, d, b, bo⟩ | ⟨i, n, d, b, ts, l⟩ | ⟨i, n, d, b, r, vol⟩
    · simp [Emp.tag] at htag
    · simp [Emp.tag] at htag
    · simp [Emp.tag] at htag
    · simp only [Emp.setSalesVolume]
      rw [if_pos h]
  · intro htag h
    rcases e with ⟨i, n, d, b⟩ | ⟨i, n, d, b, bo⟩ | ⟨i, n, d, b, ts, l⟩ | ⟨i, n, d, b, r, vol⟩
    · simp [Emp.tag] at htag
    · simp [Emp.tag] at htag
    · simp [Emp.tag] at htag
    · refine ⟨.salesperson i n d b r q, ?_, rfl⟩
      simp only [Emp.setSalesVolume]
      rw [if_neg (not_lt.mpr h)]

/-- Witness for C8 at concrete employees: each kind of invalid write errors, and
two representative valid writes change exactly the written field. -/
theorem setters_witness :
    (Emp.manager 2 "m" "d" 10 1).setId 0 = .error .valueError ∧
    (Emp.manager 2 "m" "d" 10 1).setName " " = .error .valueError ∧
    (Emp.manager 2 "m" "d" 10 1).setDepartment " " = .error .valueError ∧
    (Emp.manager 2 "m" "d" 10 1).setBaseSalary (-1) = .error .valueError ∧
    (Emp.manager 2 "m" "d" 10 1).setBonus (-1) = .error .valueError ∧
    (Emp.developer 3 "e" "d" 10 [] "junior").setSeniorityLevel "guru" = .error .valueError ∧
    (Emp.salesperson 4 "s" "d" 10 1 0).setCommissionRate 2 = .error .valueError ∧
    (Emp.salesperson 4 "s" "d" 10 1 0).setSalesVolume (-5) = .error .valueError ∧
    (∃ e1, (Emp.manager 2 "m" "d" 10 1).setId 7 = .ok e1 ∧
      e1.fields = ("Manager", 7, "m", "d", (10:ℚ), some (1:ℚ), none, none, none, none)) ∧
    (∃ e1, (Emp.salesperson 4 "s" "d" 10 1 0).setCommissionRate 0 = .ok e1 ∧
      e1.fields = ("Salesperson", 4, "s", "d", (10:ℚ), none, none, none,
        some (0:ℚ), some (0:ℚ))) := by
  obtain ⟨a1, -, a3, -, a5, -, a7, -, a9, -, -, -, -, -, -, -⟩ :=
    setters_validate_and_update_single_field (Emp.manager 2 "m" "d" 10 1) 0 " " (-1)
  obtain ⟨-, b2, -, -, -, -, -, -, -, -, -, -, -, -, -, -⟩ :=
    setters_validate_and_update_single_field (Emp.manager 2 "m" "d" 10 1) 7 "x" 0
  obtain ⟨-, -, -, -, -, -, -, -, -, -, c11, -, -, -, -, -⟩ :=
    setters_validate_and_update_single_field (Emp.developer 3 "e" "d" 10 [] "junior") 1 "guru" 0
  obtain ⟨-, -, -, -, -, -, -, -, -, -, -, -, d13, -, -, -⟩ :=
    setters_validate_and_update_single_field (Emp.salesperson 4 "s" "d" 10 1 0) 1 "x" 2
  obtain ⟨-, -, -, -, -, -, -, -, -, -, -, -, -, e14, -, -⟩ :=
    setters_validate_and_update_single_field (Emp.salesperson 4 "s" "d" 10 1 0) 1 "x" 0
  obtain ⟨-, -, -, -, -, -, -, -, -, -, -, -, -, -, f15, -⟩ :=
    setters_validate_and_update_single_field (Emp.salesperson 4 "s" "d" 10 1 0) 1 "x" (-5)
  exact ⟨a1 (by decide), a3 (by decide), a5 (by decide), a7 (by decide), a9 rfl (by decide),
    c11 rfl (by decide), d13 rfl (Or.inr (by decide)), f15 rfl (by decide),
    b2 (by decide), e14 rfl (by decide) (by decide)⟩

/-! ## C4: department name uniqueness -/

/-- Counterexample for C4: adding a second, distinct department object with the
same name "X" succeeds, so a company can hold two departments sharing a name. -/
theorem add_department_duplicate_name_succeeds :
    Company.addDepartment ⟨"C", [⟨0, "X", []⟩], []⟩ ⟨1, "X", []⟩ =
      .ok ⟨"C", [⟨0, "X", []⟩, ⟨1, "X", []⟩], []⟩ ∧
    (Company.mk "C" [⟨0, "X", []⟩, ⟨1, "X", []⟩] []).departments.map Department.name =
      ["X", "X"] := by
  constructor <;> rfl

/-- C4 (amended): `add_department` checks membership by object identity only —
it fails exactly when the very same department object is already held, and
succeeds (appending) for any distinct object, even one whose name duplicates a
held department's name. -/
theorem add_department_checks_identity_not_name (c : Company) (d : Department) :
    ((∀ d1 ∈ c.departments, d1.ref ≠ d.ref) →
      c.addDepartment d = .ok { c with departments := c.departments ++ [d] }) ∧
    ((∃ d1 ∈ c.departments, d1.ref = d.ref) →
      c.addDepartment d = .error .valueError) := by
  constructor
  · intro h
    have hfalse : c.departments.any (fun x => x.ref == d.ref) = false := by
      rw [List.any_eq_false]
      intro x hx
      simp only [beq_iff_eq]
      exact h x hx
    unfold Company.addDepartment
    rw [if_neg (by simp [hfalse])]
  · intro h
    obtain ⟨d1, hm, hr⟩ := h
    have htrue : c.departments.any (fun x => x.ref == d.ref) = true := by
      rw [List.any_eq_true]
      exact ⟨d1, hm, by simp [hr]⟩
    unfold Company.addDepartment
    rw [if_pos htrue]

/-- Witness for C4 (amended): a fresh object with a duplicate name is accepted;
re-adding the identical object is rejected. -/
theorem add_department_checks_identity_not_name_witness :
    Company.addDepartment ⟨"B", [⟨0, "Y", []⟩], []⟩ ⟨1, "Y", []⟩ =
      .ok ⟨"B", [⟨0, "Y", []⟩, ⟨1, "Y", []⟩], []⟩ ∧
    Company.addDepartment ⟨"B", [⟨0, "Y", []⟩], []⟩ ⟨0, "Z", []⟩ =
      .error .valueError := by
  constructor
  · exact (add_department_checks_identity_not_name _ _).1 (by decide)
  · exact (add_department_checks_identity_not_name _ _).2 ⟨⟨0, "Y", []⟩, by simp, rfl⟩

end Lab5

namespace Lab5

/-! ## C9 and C10: team relinking during load -/

/-- The saved document used to exhibit C9: the team of project 1 contains a
record with id 9, and no department holds an employee with id 9. -/
def c9data : CompanyData :=
  ⟨"C", [⟨"D", [Emp.toDict (.employee 1 "Ann" "D" 10)]⟩],
   [⟨1, "P", "d", "2024-01-05", some "active",
     [⟨"Employee", some 9, "Gus", "X", 1, none, none, none, none, none⟩,
      Emp.toDict (.employee 1 "Ann" "D" 10)]⟩]⟩

/-- C9: a team-member record whose employee id resolves to no loaded department
employee is skipped silently — the relink step returns the company unchanged
instead of failing — and the project and the rest of the company still load:
on `c9data` the whole load succeeds, dropping only the dangling member. -/
theorem load_skips_unresolvable_team_ids :
    (∀ (c : Company) (pid : Int) (r : EmpRecord) (i : Int),
      r.id = some i → c.findEmployeeById i = none → relinkOne c pid r = .ok c) ∧
    Company.loadFromJson c9data =
      .ok ⟨"C", [⟨0, "D", [.employee 1 "Ann" "D" 10]⟩],
        [⟨0, 1, "P", "d", ⟨2024, 1, 5⟩, "active", [.employee 1 "Ann" "D" 10]⟩]⟩ := by
  constructor
  · intro c pid r i hr hf
    have hassign : c.assignEmployeeToProject i pid = .error .employeeNotFound := by
      unfold Company.assignEmployeeToProject
      rw [hf]
    unfold relinkOne
    simp only [hr]
    by_cases hi : (i == 0) = true
    · rw [if_pos hi]
    · rw [if_neg hi, hassign]
  · rfl

/-- Witness for C9 at a concrete company: relinking a record with unresolvable
id 9 returns the company unchanged. -/
theorem load_skips_unresolvable_team_ids_witness :
    relinkOne ⟨"C", [], []⟩ 1
      ⟨"Employee", some 9, "Gus", "X", 1, none, none, none, none, none⟩ =
      .ok ⟨"C", [], []⟩ :=
  load_skips_unresolvable_team_ids.1 ⟨"C", [], []⟩ 1 _ 9 rfl rfl

/-- The saved document used to exhibit C10: one project's team list holds two
records with the same id 7, and an employee with id 7 exists in a department. -/
def c10data : CompanyData :=
  ⟨"C", [⟨"D", [Emp.toDict (.employee 7 "Ann" "D" 10)]⟩],
   [⟨1, "P", "d", "2024-01-05", some "active",
     [Emp.toDict (.employee 7 "Ann" "D" 10), Emp.toDict (.employee 7 "Ann" "D" 10)]⟩]⟩

/-- C10: the relinking loop suppresses only the not-found failures: a duplicate
team-member record (same id twice, resolvable) raises an uncaught duplicate
error from `add_team_member` and the whole load returns no company; records
whose id is absent or 0 are skipped unconditionally, without any lookup. -/
theorem load_aborts_on_duplicate_team_record :
    Company.loadFromJson c10data = .error .valueError ∧
    (∀ (c : Company) (pid : Int) (r : EmpRecord), r.id = none →
      relinkOne c pid r = .ok c) ∧
    (∀ (c : Company) (pid : Int) (r : EmpRecord), r.id = some 0 →
      relinkOne c pid r = .ok c) := by
  refine ⟨rfl, ?_, ?_⟩
  · intro c pid r h
    unfold relinkOne
    simp only [h]
  · intro c pid r h
    unfold relinkOne
    simp only [h]
    rfl

/-- Witness for C10: records with absent id and with id 0 are skipped on a
concrete company without consulting any department. -/
theorem load_aborts_on_duplicate_team_record_witness :
    relinkOne ⟨"C", [], []⟩ 1 ⟨"Employee", none, "G", "X", 1, none, none, none, none, none⟩ =
      .ok ⟨"C", [], []⟩ ∧
    relinkOne ⟨"C", [], []⟩ 1 ⟨"Employee", some 0, "G", "X", 1, none, none, none, none, none⟩ =
      .ok ⟨"C", [], []⟩ :=
  ⟨load_aborts_on_duplicate_team_record.2.1 ⟨"C", [], []⟩ 1 _ rfl,
   load_aborts_on_duplicate_team_record.2.2 ⟨"C", [], []⟩ 1 _ rfl⟩

end Lab5

namespace Lab5

/-! ## C5: overload detection and availability -/

/-- Helper: symmetry of boolean equality on ids. -/
lemma int_beq_comm (a b : Int) : (a == b) = (b == a) := by
  by_cases h : a = b
  · simp [h]
  · simp [beq_eq_false_iff_ne, h, Ne.symm h]

/-- Helper: the counting dictionary's key list holds exactly the ids seen. -/
lemma mem_firstOccAux : ∀ (l acc : List Int) (i : Int),
    i ∈ firstOccAux acc l ↔ i ∈ acc ∨ i ∈ l := by
  intro l
  induction l with
  | nil =>
    intro acc i
    simp [firstOccAux]
  | cons x xs ih =>
    intro acc i
    unfold firstOccAux
    by_cases hx : xs.contains x = true
    all_goals by_cases hax : acc.contains x = true
    · rw [if_pos hax, ih]
      have hx1 : x ∈ acc := List.elem_iff.mp hax
      simp only [List.mem_cons]
      constructor
      · rintro (h | h)
        · exact Or.inl h
        · exact Or.inr (Or.inr h)
      · rintro (h | rfl | h)
        · exact Or.inl h
        · exact Or.inl hx1
        · exact Or.inr h
    · rw [if_neg hax, ih]
      simp only [List.mem_append, List.mem_cons, List.mem_singleton]
      tauto
    · rw [if_pos hax, ih]
      have hx1 : x ∈ acc := List.elem_iff.mp hax
      simp only [List.mem_cons]
      constructor
      · rintro (h | h)
        · exact Or.inl h
        · exact Or.inr (Or.inr h)
      · rintro (h | rfl | h)
        · exact Or.inl h
        · exact Or.inl hx1
        · exact Or.inr h
    · rw [if_neg hax, ih]
      simp only [List.mem_append, List.mem_cons, List.mem_singleton]
      tauto

/-- Helper: a successful id search returns an employee carrying that id. -/
lemma find?_id_some {l : List Emp} {i : Int} {e : Emp}
    (h : l.find? (fun x => x.id == i) = some e) : e.id = i := by
  have h1 := List.find?_some h
  simpa using h1

/-- Helper: a company-wide id search returns an employee carrying that id. -/
lemma findEmpInDepts_id : ∀ (ds : List Department) (i : Int) (e : Emp),
    findEmpInDepts ds i = some e → e.id = i := by
  intro ds
  induction ds with
  | nil =>
    intro i e h
    simp [findEmpInDepts] at h
  | cons d ds ih =>
    intro i e h
    unfold findEmpInDepts at h
    cases hfind : d.findEmployeeById i with
    | some x =>
      rw [hfind] at h
      injection h with h
      subst h
      exact find?_id_some hfind
    | none =>
      rw [hfind] at h
      exact ih i e h

/-- Helper: if some department holds the id, the company-wide search succeeds. -/
lemma findEmpInDepts_isSome : ∀ (ds : List Department) (i : Int),
    (∃ d ∈ ds, ∃ x ∈ d.employees, x.id = i) →
    ∃ e, findEmpInDepts ds i = some e ∧ e.id = i := by
  intro ds
  induction ds with
  | nil =>
    rintro i ⟨d, hd, -⟩
    simp at hd
  | cons d ds ih =>
    rintro i ⟨d0, hd0, x, hx, hxi⟩
    unfold findEmpInDepts
    cases hfind : d.findEmployeeById i with
    | some y => exact ⟨y, rfl, find?_id_some hfind⟩
    | none =>
      rcases List.mem_cons.mp hd0 with rfl | hmem
      · exfalso
        have := List.find?_eq_none.mp hfind x hx
        simp [hxi] at this
      · exact ih i ⟨d0, hmem, x, hx, hxi⟩

/-- Helper: in a duplicate-free id list every id occurs at most once. -/
lemma count_nodupB : ∀ (l : List Int), nodupB l = true →
    ∀ i, l.count i = if i ∈ l then 1 else 0 := by
  intro l
  induction l with
  | nil => simp
  | cons x xs ih =>
    intro h i
    rw [nodupB] at h
    rcases Bool.and_eq_true_iff.mp h with ⟨hnx, hnd⟩
    have hxmem : x ∉ xs := by
      intro hm
      have h2 : xs.contains x = true := List.elem_iff.mpr hm
      rw [h2] at hnx
      simp at hnx
    rw [List.count_cons]
    by_cases hxi : x = i
    · subst hxi
      rw [List.count_eq_zero.mpr hxmem]
      simp
    · rw [ih hnd i]
      simp only [List.mem_cons]
      have : (x == i) = false := beq_eq_false_iff_ne.mpr hxi
      rw [this]
      by_cases hmem : i ∈ xs
      · simp [hmem]
      · have : ¬(i = x ∨ i ∈ xs) := by
          rintro (rfl | hm)
          · exact hxi rfl
          · exact hmem hm
        simp [hmem, Ne.symm hxi]

/-- Helper: an id occurs in a team iff the team's id list contains it. -/
lemma any_id_eq_contains (l : List Emp) (i : Int) :
    l.any (fun e => e.id == i) = (l.map Emp.id).contains i := by
  induction l with
  | nil => rfl
  | cons e l ih =>
    simp only [List.any_cons, List.map_cons, List.contains_cons]
    rw [ih, int_beq_comm e.id i]

/-- Helper: with duplicate-free teams, counting id occurrences across all teams
equals counting the projects whose team holds the id. -/
lemma count_flatten_eq_countP (i : Int) : ∀ (ps : List Project),
    (∀ p ∈ ps, nodupB (p.team.map Emp.id) = true) →
    ((ps.map (fun p => p.team.map Emp.id)).flatten).count i =
      ps.countP (fun p => p.team.any (fun e => e.id == i)) := by
  intro ps
  induction ps with
  | nil => intro h; rfl
  | cons p ps ih =>
    intro h
    have hp := h p (List.mem_cons_self p ps)
    have hps : ∀ q ∈ ps, nodupB (q.team.map Emp.id) = true :=
      fun q hq => h q (List.mem_cons_of_mem _ hq)
    simp only [List.map_cons, List.flatten_cons, List.count_append, List.countP_cons]
    rw [ih hps, count_nodupB _ hp i, any_id_eq_contains]
    by_cases hmem : i ∈ p.team.map Emp.id
    · rw [if_pos hmem]
      have : (p.team.map Emp.id).contains i = true := List.elem_iff.mpr hmem
      rw [this]
      simp [Nat.add_comm]
    · rw [if_neg hmem]
      have : (p.team.map Emp.id).contains i = false := by
        rw [Bool.eq_false_iff]
        intro hc
        exact hmem (List.elem_iff.mp hc)
      rw [this]
      simp

/-- C5 (amended): `find_overloaded_employees()` returns exactly the employees
that a company-wide id lookup resolves for some id occurring more than once
across project teams — an id on multiple teams but absent from every department
is silently dropped; `check_employee_availability(id)` is true iff the id
appears in the teams of fewer than 2 projects; and for duplicate-free teams the
occurrence count equals the number of projects containing the id. -/
theorem overload_and_availability (c : Company) :
    (∀ e, e ∈ c.findOverloadedEmployees ↔
      ∃ i, 1 < (teamIdsAll c).count i ∧ c.findEmployeeById i = some e) ∧
    (∀ i, c.checkEmployeeAvailability i = true ↔
      c.projects.countP (fun p => p.team.any (fun e => e.id == i)) < 2) ∧
    ((∀ p ∈ c.projects, nodupB (p.team.map Emp.id) = true) → ∀ i,
      (teamIdsAll c).count i =
        c.projects.countP (fun p => p.team.any (fun e => e.id == i))) := by
  refine ⟨?_, ?_, ?_⟩
  · intro e
    unfold Company.findOverloadedEmployees
    rw [List.mem_filterMap]
    constructor
    · rintro ⟨i, hi, hf⟩
      by_cases hc : 1 < (teamIdsAll c).count i
      · rw [if_pos hc] at hf
        exact ⟨i, hc, hf⟩
      · rw [if_neg hc] at hf
        cases hf
    · rintro ⟨i, hc, hf⟩
      refine ⟨i, ?_, ?_⟩
      · rw [mem_firstOccAux]
        exact Or.inr (List.count_pos_iff.mp (Nat.lt_of_lt_of_le Nat.zero_lt_one (Nat.le_of_lt hc)))
      · rw [if_pos hc]
        exact hf
  · intro i
    unfold Company.checkEmployeeAvailability
    rw [decide_eq_true_iff]
    have : c.projects.countP (fun p => (p.findTeamMember i).isSome) =
        c.projects.countP (fun p => p.team.any (fun e => e.id == i)) := by
      apply List.countP_congr
      intro p _
      unfold Project.findTeamMember
      rw [List.find?_isSome]
      simp
    rw [this]
  · intro hnd i
    unfold teamIdsAll
    exact count_flatten_eq_countP i c.projects hnd

/-- The company used to exhibit C5: employee id 9 sits on both project teams but
in no department (reachable: assign to the projects, then remove the employee
from its department and delete the then-empty department). -/
def cOverload : Company :=
  ⟨"C", [],
   [⟨0, 1, "P1", "d", ⟨2024, 1, 5⟩, "active", [.employee 9 "Gus" "X" 1]⟩,
    ⟨1, 2, "P2", "d", ⟨2024, 1, 5⟩, "active", [.employee 9 "Gus" "X" 1]⟩]⟩

/-- Counterexample for C5: id 9 appears in the teams of two projects, yet
`find_overloaded_employees()` returns the empty list because no department
resolves id 9 (the availability half of the claim does hold). -/
theorem overload_misses_departmentless_employee :
    cOverload.validB = true ∧
    (teamIdsAll cOverload).count 9 = 2 ∧
    cOverload.findOverloadedEmployees = [] ∧
    cOverload.checkEmployeeAvailability 9 = false := by
  refine ⟨by decide, by decide, by decide, by decide⟩

/-- Witness for C5 (amended) at the concrete company above. -/
theorem overload_and_availability_witness :
    ((teamIdsAll cOverload).count 9 =
      cOverload.projects.countP (fun p => p.team.any (fun e => e.id == 9))) ∧
    (cOverload.checkEmployeeAvailability 9 = true ↔
      cOverload.projects.countP (fun p => p.team.any (fun e => e.id == 9)) < 2) :=
  ⟨(overload_and_availability cOverload).2.2 (by decide) 9,
   (overload_and_availability cOverload).2.1 9⟩

end Lab5

namespace Lab5

/-! ## C3: transfer atomicity -/

/-- The in-place mutation of the source department performed by
`source_dept.remove_employee(employee_id)` inside `transfer_employee`, seen at
the company level. -/
def sourceRemoved (c : Company) (src : Department) (empId : Int) (fromDept : String) : Company :=
  Company.mk c.name
    (updateFirstNamed c.departments fromDept
      (Department.mk src.ref src.name (removeFirstById src.employees empId)))
    c.projects

/-- Helper: a by-name search succeeds iff the name list holds the name. -/
lemma find?_name_isSome (ds : List Department) (nm : String) :
    (ds.find? (fun d => d.name == nm)).isSome =
      (ds.map Department.name).any (fun s => s == nm) := by
  induction ds with
  | nil => rfl
  | cons d ds ih =>
    simp only [List.map_cons, List.any_cons, List.find?_cons]
    cases hd : (d.name == nm)
    · simp [hd, ih]
    · simp [hd]

/-- Helper: replacing the first department of a given name by a department with
that same name leaves the name list unchanged. -/
lemma updateFirstNamed_names (ds : List Department) (nm : String) (d1 : Department)
    (h : d1.name = nm) :
    (updateFirstNamed ds nm d1).map Department.name = ds.map Department.name := by
  induction ds with
  | nil => rfl
  | cons d ds ih =>
    unfold updateFirstNamed
    by_cases hd : (d.name == nm) = true
    · rw [if_pos hd]
      simp only [List.map_cons]
      rw [h, beq_iff_eq.mp hd]
    · rw [if_neg hd]
      simp only [List.map_cons, ih]

/-- C3 (amended): for the claimed failure modes — missing source department,
missing target department, employee absent from the source — `transfer_employee`
raises with the company unchanged; when all lookups succeed it either moves the
employee (target free of that id), or, when the first department named
`to_dept` already holds an employee with the same id, raises `ValueError` with
the employee already removed from the source: a partial mutation the claim
rules out. -/
theorem transfer_atomicity_cases (c : Company) (empId : Int) (fromDept toDept : String) :
    ((c.transferEmployee empId fromDept toDept).fst = .error .departmentNotFound ∨
     (c.transferEmployee empId fromDept toDept).fst = .error .employeeNotFound →
      (c.transferEmployee empId fromDept toDept).snd = c) ∧
    (∀ src emp tgt,
      c.findDepartmentByName fromDept = some src →
      src.findEmployeeById empId = some emp →
      (sourceRemoved c src empId fromDept).findDepartmentByName toDept = some tgt →
      ((tgt.employees.any (fun x => x.eqById emp) = false →
        c.transferEmployee empId fromDept toDept = (.ok true,
          Company.mk c.name
            (updateFirstNamed (sourceRemoved c src empId fromDept).departments toDept
              (Department.mk tgt.ref tgt.name (tgt.employees ++ [emp])))
            c.projects)) ∧
       (tgt.employees.any (fun x => x.eqById emp) = true →
        c.transferEmployee empId fromDept toDept =
          (.error .valueError, sourceRemoved c src empId fromDept)))) := by
  cases hfrom : c.findDepartmentByName fromDept with
  | none =>
    constructor
    · intro _
      simp only [Company.transferEmployee, hfrom]
    · intro src emp tgt hsrc _ _
      exact Option.noConfusion hsrc
  | some src0 =>
    have hsrcname : src0.name = fromDept := by
      have := List.find?_some hfrom
      exact beq_iff_eq.mp this
    have hnames := updateFirstNamed_names c.departments fromDept
      (Department.mk src0.ref src0.name (removeFirstById src0.employees empId)) hsrcname
    have hiso : ((updateFirstNamed c.departments fromDept
        (Department.mk src0.ref src0.name (removeFirstById src0.employees empId))).find?
          (fun d => d.name == toDept)).isSome =
        (c.departments.find? (fun d => d.name == toDept)).isSome := by
      rw [find?_name_isSome, find?_name_isSome, hnames]
    cases hto : c.findDepartmentByName toDept with
    | none =>
      constructor
      · intro _
        simp only [Company.transferEmployee, hfrom, hto]
      · intro src emp tgt hsrc hemp htgt
        injection hsrc with hsrc
        subst hsrc
        exfalso
        unfold Company.findDepartmentByName at hto
        unfold sourceRemoved Company.findDepartmentByName at htgt
        rw [hto] at hiso
        rw [htgt] at hiso
        simp at hiso
    | some tgt0 =>
      cases hemp0 : src0.findEmployeeById empId with
      | none =>
        constructor
        · intro _
          simp only [Company.transferEmployee, hfrom, hto, hemp0]
        · intro src emp tgt hsrc hemp htgt
          injection hsrc with hsrc
          subst hsrc
          rw [hemp0] at hemp
          exact Option.noConfusion hemp
      | some emp0 =>
        cases htgt1 : (sourceRemoved c src0 empId fromDept).findDepartmentByName toDept with
        | none =>
          exfalso
          unfold Company.findDepartmentByName at hto
          unfold sourceRemoved Company.findDepartmentByName at htgt1
          rw [hto] at hiso
          rw [htgt1] at hiso
          simp at hiso
        | some tgt1 =>
          unfold sourceRemoved Company.findDepartmentByName at htgt1
          by_cases hdup : tgt1.employees.any (fun x => x.eqById emp0) = true
          · have heq : c.transferEmployee empId fromDept toDept =
                (.error .valueError, sourceRemoved c src0 empId fromDept) := by
              simp only [Company.transferEmployee, hfrom, hto, hemp0]
              simp only [Company.findDepartmentByName, htgt1]
              simp only [Department.addEmployee, hdup]
              unfold sourceRemoved
              rfl
            constructor
            · intro hcase
              rw [heq] at hcase
              rcases hcase with h | h <;> cases h
            · intro src emp tgt hsrc hemp htgt
              injection hsrc with hsrc
              subst hsrc
              rw [hemp0] at hemp
              injection hemp with hemp
              subst hemp
              unfold sourceRemoved Company.findDepartmentByName at htgt
              rw [htgt1] at htgt
              injection htgt with htgt
              subst htgt
              constructor
              · intro hfree
                rw [hfree] at hdup
                cases hdup
              · intro _
                exact heq
          · have heq : c.transferEmployee empId fromDept toDept = (.ok true,
                Company.mk c.name
                  (updateFirstNamed (sourceRemoved c src0 empId fromDept).departments toDept
                    (Department.mk tgt1.ref tgt1.name (tgt1.employees ++ [emp0])))
                  c.projects) := by
              simp only [Company.transferEmployee, hfrom, hto, hemp0]
              simp only [Company.findDepartmentByName, htgt1]
              simp only [Department.addEmployee]
              rw [if_neg hdup]
              unfold sourceRemoved
              rfl
            constructor
            · intro hcase
              rw [heq] at hcase
              rcases hcase with h | h <;> cases h
            · intro src emp tgt hsrc hemp htgt
              injection hsrc with hsrc
              subst hsrc
              rw [hemp0] at hemp
              injection hemp with hemp
              subst hemp
              unfold sourceRemoved Company.findDepartmentByName at htgt
              rw [htgt1] at htgt
              injection htgt with htgt
              subst htgt
              constructor
              · intro _
                exact heq
              · intro hdup1
                rw [hdup1] at hdup
                exact absurd rfl hdup

/-- The company used to exhibit C3: departments "A" and "B" each hold a distinct
employee object with id 5 (a reachable, invariant-satisfying state). -/
def cTrans : Company :=
  ⟨"C", [⟨0, "A", [.employee 5 "SrcGuy" "A" 10]⟩, ⟨1, "B", [.employee 5 "TgtGuy" "B" 20]⟩], []⟩

/-- Counterexample for C3: transferring employee 5 from "A" to "B" fails with a
`ValueError` (not one of the claimed failure modes), and after the failure the
source department's list has lost the employee while the target is unchanged —
a visible partial mutation on a valid reachable state. -/
theorem transfer_partial_mutation :
    cTrans.validB = true ∧
    (cTrans.transferEmployee 5 "A" "B").fst = .error .valueError ∧
    cTrans.departments.map (fun d => d.employees.map Emp.id) = [[5], [5]] ∧
    (cTrans.transferEmployee 5 "A" "B").snd.departments.map
      (fun d => d.employees.map Emp.id) = [[], [5]] := by
  refine ⟨by decide, by decide, by decide, by decide⟩

/-- Witness for C3 (amended): a missing target department leaves the state
unchanged, and a transfer into a free target moves the employee. -/
theorem transfer_atomicity_cases_witness :
    (Company.transferEmployee ⟨"C", [⟨0, "A", [.employee 5 "S" "A" 10]⟩], []⟩ 5 "A" "Z").snd =
      ⟨"C", [⟨0, "A", [.employee 5 "S" "A" 10]⟩], []⟩ ∧
    Company.transferEmployee ⟨"C", [⟨0, "A", [.employee 5 "S" "A" 10]⟩, ⟨1, "B", []⟩], []⟩
        5 "A" "B" =
      (.ok true, ⟨"C", [⟨0, "A", []⟩, ⟨1, "B", [.employee 5 "S" "A" 10]⟩], []⟩) := by
  constructor
  · exact (transfer_atomicity_cases ⟨"C", [⟨0, "A", [.employee 5 "S" "A" 10]⟩], []⟩
      5 "A" "Z").1 (Or.inl (by decide))
  · have h := ((transfer_atomicity_cases
      ⟨"C", [⟨0, "A", [.employee 5 "S" "A" 10]⟩, ⟨1, "B", []⟩], []⟩
      5 "A" "B").2 ⟨0, "A", [.employee 5 "S" "A" 10]⟩ (.employee 5 "S" "A" 10) ⟨1, "B", []⟩
      (by decide) (by decide) (by decide)).1 (by decide)
    exact h.trans (by decide)

end Lab5

namespace Lab5

/-! ## C1: save/load round trip — employee records -/

/-- Helper: base validation passes on valid field values. -/
lemma mkEmployeeBase_ok {i : Int} {n : String} {b : ℚ} (d : String)
    (h1 : 0 < i) (h2 : isBlank n = false) (h3 : 0 ≤ b) :
    mkEmployeeBase i n d b = .ok () := by
  unfold mkEmployeeBase
  rw [if_neg (not_le.mpr h1), if_neg (by simp [h2]), if_neg (not_lt.mpr h3)]

/-- Helper: the `Employee` constructor succeeds on valid fields. -/
lemma mkEmployee_ok {i : Int} {n : String} {b : ℚ} (d : String)
    (h1 : 0 < i) (h2 : isBlank n = false) (h3 : 0 ≤ b) :
    mkEmployee i n d b = .ok (.employee i n d b) := by
  unfold mkEmployee
  rw [mkEmployeeBase_ok d h1 h2 h3]
  rfl

/-- Helper: the `Manager` constructor succeeds on valid fields. -/
lemma mkManager_ok {i : Int} {n : String} {b bo : ℚ} (d : String)
    (h1 : 0 < i) (h2 : isBlank n = false) (h3 : 0 ≤ b) (h4 : 0 ≤ bo) :
    mkManager i n d b bo = .ok (.manager i n d b bo) := by
  unfold mkManager
  rw [mkEmployeeBase_ok d h1 h2 h3]
  show (if bo < 0 then (.error .valueError : Except Err Emp) else pure (.manager i n d b bo)) = _
  rw [if_neg (not_lt.mpr h4)]
  rfl

/-- Helper: the `Developer` constructor succeeds on valid fields. -/
lemma mkDeveloper_ok {i : Int} {n : String} {b : ℚ} {ts : List String} {lvl : String} (d : String)
    (h1 : 0 < i) (h2 : isBlank n = false) (h3 : 0 ≤ b)
    (h4 : (List.lookup lvl SENIORITY_COEFFICIENTS).isSome = true)
    (h5 : ts.any isBlank = false) :
    mkDeveloper i n d b ts lvl = .ok (.developer i n d b ts lvl) := by
  unfold mkDeveloper
  rw [mkEmployeeBase_ok d h1 h2 h3]
  show (if (List.lookup lvl SENIORITY_COEFFICIENTS).isNone then
      (.error .valueError : Except Err Emp)
    else if ts.any isBlank then .error .valueError
    else pure (.developer i n d b ts lvl)) = _
  rw [if_neg (by rw [Option.isNone_iff_eq_none]; exact Option.isSome_iff_ne_none.mp h4),
    if_neg (by simp [h5])]
  rfl

/-- Helper: the `Salesperson` constructor succeeds on valid fields. -/
lemma mkSalesperson_ok {i : Int} {n : String} {b r v : ℚ} (d : String)
    (h1 : 0 < i) (h2 : isBlank n = false) (h3 : 0 ≤ b)
    (h4 : 0 ≤ r) (h5 : r ≤ 1) (h6 : 0 ≤ v) :
    mkSalesperson i n d b r v = .ok (.salesperson i n d b r v) := by
  unfold mkSalesperson
  rw [mkEmployeeBase_ok d h1 h2 h3]
  show (if r < 0 ∨ 1 < r then (.error .valueError : Except Err Emp)
    else if v < 0 then .error .valueError
    else pure (.salesperson i n d b r v)) = _
  rw [if_neg (by push_neg; exact ⟨h4, h5⟩), if_neg (not_lt.mpr h6)]
  rfl

/-- Helper: for every validly constructed employee, serializing it to a record
and re-reading the record through the dispatch table reproduces it exactly. -/
lemma empFromDict_toDict (e : Emp) (h : e.validB = true) :
    empFromDict e.toDict = .ok e := by
  rcases e with ⟨i, n, d, b⟩ | ⟨i, n, d, b, bo⟩ | ⟨i, n, d, b, ts, lvl⟩ | ⟨i, n, d, b, r, v⟩
  · simp only [Emp.validB, Bool.and_eq_true_iff, decide_eq_true_eq, Bool.not_eq_true'] at h
    obtain ⟨⟨⟨h1, h2⟩, h3⟩, h4⟩ := h
    simp only [Emp.toDict, empFromDict]
    exact mkEmployee_ok d h1 h2 h4
  · simp only [Emp.validB, Bool.and_eq_true_iff, decide_eq_true_eq, Bool.not_eq_true'] at h
    obtain ⟨⟨⟨⟨h1, h2⟩, h3⟩, h4⟩, h5⟩ := h
    simp only [Emp.toDict, empFromDict]
    exact mkManager_ok d h1 h2 h4 h5
  · simp only [Emp.validB, Bool.and_eq_true_iff, decide_eq_true_eq, Bool.not_eq_true'] at h
    obtain ⟨⟨⟨⟨⟨h1, h2⟩, h3⟩, h4⟩, h5⟩, h6⟩ := h
    simp only [Emp.toDict, empFromDict]
    exact mkDeveloper_ok d h1 h2 h4 h5 h6
  · simp only [Emp.validB, Bool.and_eq_true_iff, decide_eq_true_eq, Bool.not_eq_true'] at h
    obtain ⟨⟨⟨⟨⟨⟨h1, h2⟩, h3⟩, h4⟩, h5⟩, h6⟩, h7⟩ := h
    simp only [Emp.toDict, empFromDict]
    exact mkSalesperson_ok d h1 h2 h4 h5 h6 h7

end Lab5

namespace Lab5

/-! ## C1: save/load round trip — date rendering and parsing -/

/-- Helper: the fuelled digit extraction computes the decimal digits. -/
lemma natDigitsBEAux_eq : ∀ (fuel n : Nat), n ≤ fuel →
    natDigitsBEAux fuel n = (Nat.digits 10 n).reverse := by
  intro fuel
  induction fuel with
  | zero =>
    intro n hn
    have h0 : n = 0 := Nat.le_zero.mp hn
    subst h0
    simp [natDigitsBEAux]
  | succ f ih =>
    intro n hn
    unfold natDigitsBEAux
    by_cases h0 : n = 0
    · subst h0
      simp
    · rw [if_neg (by simpa using h0)]
      have hdiv : n / 10 ≤ f := by
        have := Nat.div_lt_self (Nat.pos_of_ne_zero h0) (by norm_num : (1:Nat) < 10)
        omega
      rw [ih (n / 10) hdiv]
      rw [Nat.digits_def' (by norm_num : (1:Nat) < 10) (Nat.pos_of_ne_zero h0)]
      rw [List.reverse_cons]

/-- Helper: digit extraction agrees with `Nat.digits`. -/
lemma natDigitsBE_eq (n : Nat) : natDigitsBE n = (Nat.digits 10 n).reverse :=
  natDigitsBEAux_eq n n le_rfl

/-- Helper: decoding an encoded digit restores its value. -/
lemma charToDigit_digitToChar {d : Nat} (h : d < 10) :
    charToDigit (digitToChar d) = d := by
  interval_cases d <;> rfl

/-- Helper: encoded digits are digit characters. -/
lemma isDigit_digitToChar {d : Nat} (h : d < 10) : (digitToChar d).isDigit = true := by
  interval_cases d <;> rfl

/-- Helper: encoded digits are never the field separator. -/
lemma digitToChar_ne_dash {d : Nat} (h : d < 10) : digitToChar d ≠ '-' := by
  interval_cases d <;> decide

/-- Helper: padding zeros contribute nothing to the decoded value. -/
lemma ofDigits_replicate_zero : ∀ k : Nat, Nat.ofDigits 10 (List.replicate k 0) = 0 := by
  intro k
  induction k with
  | zero => rfl
  | succ k ih =>
    rw [List.replicate_succ, Nat.ofDigits_cons, ih]

/-- Helper: every digit produced for `n` is below 10. -/
lemma natDigitsBE_lt (n : Nat) : ∀ x ∈ natDigitsBE n, x < 10 := by
  intro x hx
  rw [natDigitsBE_eq, List.mem_reverse] at hx
  exact Nat.digits_lt_base (by norm_num) hx

/-- Helper: a zero-padded decimal rendering parses back to the same number. -/
lemma parse_print_nat (w n : Nat) (hw : 0 < w) :
    parseNatDigits (printNatPad w n) = some n := by
  unfold printNatPad parseNatDigits
  have hmem : ∀ x ∈ List.replicate (w - (natDigitsBE n).length) 0 ++ natDigitsBE n, x < 10 := by
    intro x hx
    rcases List.mem_append.mp hx with hx | hx
    · have := List.eq_of_mem_replicate hx
      omega
    · exact natDigitsBE_lt n x hx
  have hlenpos : 0 < (List.replicate (w - (natDigitsBE n).length) 0 ++ natDigitsBE n).length := by
    rw [List.length_append, List.length_replicate]
    omega
  have hne : (List.replicate (w - (natDigitsBE n).length) 0 ++ natDigitsBE n) ≠ [] :=
    List.length_pos.mp hlenpos
  have hne2 : ((List.replicate (w - (natDigitsBE n).length) 0 ++ natDigitsBE n).map
      digitToChar) ≠ [] := by
    intro hcon
    exact hne (List.map_eq_nil_iff.mp hcon)
  rw [if_neg (by rw [List.isEmpty_iff]; exact hne2)]
  rw [if_pos]
  · congr 1
    rw [List.map_map]
    have hid : (List.replicate (w - (natDigitsBE n).length) 0 ++ natDigitsBE n).map
        (charToDigit ∘ digitToChar) =
        List.replicate (w - (natDigitsBE n).length) 0 ++ natDigitsBE n := by
      rw [List.map_congr_left (fun x hx => by
        simp only [Function.comp_apply]
        exact charToDigit_digitToChar (hmem x hx))]
      exact List.map_id _
    rw [hid, List.reverse_append, List.reverse_replicate]
    rw [Nat.ofDigits_append, ofDigits_replicate_zero, Nat.mul_zero, Nat.add_zero]
    rw [natDigitsBE_eq, List.reverse_reverse]
    exact Nat.ofDigits_digits 10 n
  · rw [List.all_eq_true]
    intro c hc
    rcases List.mem_map.mp hc with ⟨x, hx, rfl⟩
    exact isDigit_digitToChar (hmem x hx)

/-- Helper: when `n` fits in `w` digits the rendering has exactly width `w`. -/
lemma printNatPad_length (w n : Nat) (h : n < 10 ^ w) : (printNatPad w n).length = w := by
  unfold printNatPad
  rw [List.length_map, List.length_append, List.length_replicate]
  have hlen : (natDigitsBE n).length ≤ w := by
    rw [natDigitsBE_eq, List.length_reverse]
    by_cases h0 : n = 0
    · subst h0
      simp
    · by_contra hgt
      push_neg at hgt
      have h1 := Nat.base_pow_length_digits_le 10 n (by norm_num) h0
      have h2 : 10 ^ (w + 1) ≤ 10 ^ (Nat.digits 10 n).length :=
        Nat.pow_le_pow_right (by norm_num) hgt
      have h3 : 10 * n < 10 ^ (w + 1) := by
        have h4 : 10 * n < 10 * 10 ^ w := by omega
        calc 10 * n < 10 * 10 ^ w := h4
          _ = 10 ^ (w + 1) := by rw [pow_succ, Nat.mul_comm]
      exact absurd (le_trans h2 h1) (not_le.mpr h3)
  omega

/-- Helper: no rendered digit is the separator. -/
lemma printNatPad_no_dash (w n : Nat) : ∀ c ∈ printNatPad w n, c ≠ '-' := by
  intro c hc
  unfold printNatPad at hc
  rcases List.mem_map.mp hc with ⟨x, hx, rfl⟩
  rcases List.mem_append.mp hx with hx | hx
  · have := List.eq_of_mem_replicate hx
    subst this
    exact digitToChar_ne_dash (by norm_num)
  · exact digitToChar_ne_dash (natDigitsBE_lt n x hx)

/-- Helper: splitting at the first separator after a separator-free prefix. -/
lemma takeWhile_dropWhile_dash (a r : List Char) (h : ∀ c ∈ a, c ≠ '-') :
    (a ++ '-' :: r).takeWhile (fun c => c ≠ '-') = a ∧
    (a ++ '-' :: r).dropWhile (fun c => c ≠ '-') = '-' :: r := by
  induction a with
  | nil =>
    constructor
    · rfl
    · rfl
  | cons x a ih =>
    have hx : x ≠ '-' := h x (List.mem_cons_self x a)
    obtain ⟨ht, hd⟩ := ih (fun c hc => h c (List.mem_cons_of_mem _ hc))
    constructor
    · rw [List.cons_append, List.takeWhile_cons, if_pos (by simpa using hx), ht]
    · rw [List.cons_append, List.dropWhile_cons, if_pos (by simpa using hx), hd]

end Lab5

namespace Lab5

/-- Helper: no month exceeds 31 days. -/
lemma daysInMonth_le (y m : Nat) : daysInMonth y m ≤ 31 := by
  unfold daysInMonth
  split_ifs <;> omega

/-- Helper: a valid date survives `strftime` followed by `strptime` unchanged. -/
lemma parseDate_printDate (dt : Date) (h : dt.validB = true) :
    parseDate (printDate dt) = some dt := by
  obtain ⟨y, m, d⟩ := dt
  simp only [Date.validB, Bool.and_eq_true_iff, decide_eq_true_eq] at h
  obtain ⟨⟨⟨⟨⟨h1, h2⟩, h3⟩, h4⟩, h5⟩, h6⟩ := h
  have hy4 : (printNatPad 4 y).length = 4 := printNatPad_length 4 y (by omega)
  have hm2 : (printNatPad 2 m).length = 2 := printNatPad_length 2 m (by omega)
  have hdle : d ≤ 31 := le_trans h6 (daysInMonth_le y m)
  have hd2 : (printNatPad 2 d).length = 2 := printNatPad_length 2 d (by omega)
  obtain ⟨ht1, hdr1⟩ := takeWhile_dropWhile_dash (printNatPad 4 y)
    (printNatPad 2 m ++ '-' :: printNatPad 2 d) (printNatPad_no_dash 4 y)
  obtain ⟨ht2, hdr2⟩ := takeWhile_dropWhile_dash (printNatPad 2 m)
    (printNatPad 2 d) (printNatPad_no_dash 2 m)
  have hnodash : (printNatPad 2 d).any (fun c => c == '-') = false := by
    rw [List.any_eq_false]
    intro c hc
    simp only [beq_iff_eq]
    exact printNatPad_no_dash 2 d c hc
  unfold printDate parseDate printDateChars parseDateChars
  try dsimp only
  rw [ht1, hdr1]
  try dsimp only
  rw [ht2, hdr2]
  try dsimp only
  rw [hnodash]
  try dsimp only
  rw [if_neg (by simp)]
  rw [hy4, hm2, hd2]
  rw [if_pos (by decide)]
  rw [parse_print_nat 4 y (by omega), parse_print_nat 2 m (by omega),
    parse_print_nat 2 d (by omega)]
  try dsimp only
  rw [if_pos]
  simp only [decide_eq_true_eq, Bool.and_eq_true_iff]
  refine ⟨⟨⟨⟨⟨?_, ?_⟩, ?_⟩, ?_⟩, ?_⟩, ?_⟩ <;> simp [h1, h2, h3, h4, h5, h6]

end Lab5

namespace Lab5

/-! ## C1: save/load round trip — departments -/

/-- Helper: in a duplicate-free list, the head block never re-contains a later
element. -/
lemma nodupB_append_cons_contains : ∀ (A : List Int) (x : Int) (B : List Int),
    nodupB (A ++ x :: B) = true → A.contains x = false := by
  intro A
  induction A with
  | nil => intro x B _; rfl
  | cons a A ih =>
    intro x B h
    rw [List.cons_append, nodupB] at h
    rcases Bool.and_eq_true_iff.mp h with ⟨hna, hnd⟩
    have hmem : (A ++ x :: B).contains a = false := by
      cases hc : (A ++ x :: B).contains a
      · rfl
      · rw [hc] at hna
        simp at hna
    have hax : a ∉ A ++ x :: B := by
      intro hm
      have hc2 : (A ++ x :: B).contains a = true := List.elem_iff.mpr hm
      rw [hc2] at hmem
      cases hmem
    rw [List.contains_cons]
    have h2 : (x == a) = false := by
      apply beq_eq_false_iff_ne.mpr
      intro hxa
      subst hxa
      exact hax (List.mem_append_right A (List.mem_cons_self x B))
    rw [h2, ih x B hnd]
    rfl

/-- Helper: every serialized record carries its employee's id. -/
lemma toDict_id (e : Emp) : (Emp.toDict e).id = some e.id := by
  cases e <;> rfl

/-- Helper: re-adding serialized employees in order reproduces the original
employee list, given constructor validity and unique ids. -/
lemma deptAddEmployees_toDict : ∀ (es acc : List Emp) (k : Nat) (nm : String),
    (∀ e ∈ es, e.validB = true) →
    nodupB ((acc ++ es).map Emp.id) = true →
    deptAddEmployees ⟨k, nm, acc⟩ (es.map Emp.toDict) = .ok ⟨k, nm, acc ++ es⟩ := by
  intro es
  induction es with
  | nil =>
    intro acc k nm _ _
    simp [deptAddEmployees]
  | cons e es ih =>
    intro acc k nm hv hnd
    have he := hv e (List.mem_cons_self e es)
    have hrest : ∀ x ∈ es, x.validB = true := fun x hx => hv x (List.mem_cons_of_mem _ hx)
    have hshape : (acc ++ e :: es).map Emp.id =
        acc.map Emp.id ++ e.id :: es.map Emp.id := by
      rw [List.map_append, List.map_cons]
    rw [hshape] at hnd
    have hnotin : (acc.map Emp.id).contains e.id = false :=
      nodupB_append_cons_contains _ _ _ hnd
    have hany : acc.any (fun x => x.eqById e) = false := by
      simp only [Emp.eqById]
      rw [any_id_eq_contains acc e.id, hnotin]
    rw [List.map_cons]
    show (do
      let e1 ← empFromDict e.toDict
      let d1 ← Department.addEmployee ⟨k, nm, acc⟩ e1
      deptAddEmployees d1 (es.map Emp.toDict)) = _
    rw [empFromDict_toDict e he]
    show (do
      let d1 ← Department.addEmployee ⟨k, nm, acc⟩ e
      deptAddEmployees d1 (es.map Emp.toDict)) = _
    unfold Department.addEmployee
    dsimp only
    rw [if_neg (by simp [hany])]
    show deptAddEmployees ⟨k, nm, acc ++ [e]⟩ (es.map Emp.toDict) = _
    have hlist : List.map Emp.id (acc ++ [e] ++ es) =
        List.map Emp.id acc ++ e.id :: List.map Emp.id es := by
      simp [List.map_append]
    rw [ih (acc ++ [e]) k nm hrest (by rw [hlist]; exact hnd)]
    rw [List.append_assoc]
    rfl

/-- Helper: `Department.load_from_file_dict` reproduces a valid department,
with a fresh object identity. -/
lemma loadFromFileDict_toDict (d : Department) (k : Nat) (h : d.validB = true) :
    Department.loadFromFileDict k d.toDict = .ok ⟨k, d.name, d.employees⟩ := by
  simp only [Department.validB, Bool.and_eq_true_iff, Bool.not_eq_true'] at h
  obtain ⟨⟨hn, hv⟩, hnd⟩ := h
  unfold Department.loadFromFileDict Department.toDict
  dsimp only
  rw [if_neg (by simp [hn])]
  have := deptAddEmployees_toDict d.employees [] k d.name (List.all_eq_true.mp hv)
    (by simpa using hnd)
  simpa using this

/-- The fresh identities `load_from_json` gives the reconstructed departments. -/
def reRefDepts : Nat → List Department → List Department
  | _, [] => []
  | k, d :: ds => ⟨k, d.name, d.employees⟩ :: reRefDepts (k + 1) ds

/-- Helper: re-identification preserves names and employees. -/
lemma reRefDepts_names : ∀ (ds : List Department) (k : Nat),
    (reRefDepts k ds).map (fun d => (d.name, d.employees)) =
      ds.map (fun d => (d.name, d.employees)) := by
  intro ds
  induction ds with
  | nil => intro k; rfl
  | cons d ds ih =>
    intro k
    unfold reRefDepts
    simp only [List.map_cons, ih]

/-- Helper: employee lookup ignores department identities. -/
lemma findEmpInDepts_reRef : ∀ (ds : List Department) (k : Nat) (i : Int),
    findEmpInDepts (reRefDepts k ds) i = findEmpInDepts ds i := by
  intro ds
  induction ds with
  | nil => intro k i; rfl
  | cons d ds ih =>
    intro k i
    unfold reRefDepts findEmpInDepts
    have hsame : Department.findEmployeeById ⟨k, d.name, d.employees⟩ i =
        d.findEmployeeById i := rfl
    rw [hsame]
    cases hf : d.findEmployeeById i with
    | some x => rfl
    | none => exact ih (k + 1) i

/-- Helper: the department-loading loop appends faithfully rebuilt departments
with fresh identities. -/
lemma loadDepartments_toDict : ∀ (ds : List Department) (c : Company) (k : Nat),
    (∀ d ∈ ds, d.validB = true) →
    (∀ d ∈ c.departments, d.ref < k) →
    loadDepartments c k (ds.map Department.toDict) =
      .ok ⟨c.name, c.departments ++ reRefDepts k ds, c.projects⟩ := by
  intro ds
  induction ds with
  | nil =>
    intro c k _ _
    obtain ⟨nm, deps, projs⟩ := c
    simp [loadDepartments, reRefDepts]
  | cons d ds ih =>
    intro c k hv hr
    rw [List.map_cons]
    show (do
      let d1 ← Department.loadFromFileDict k d.toDict
      let c1 ← c.addDepartment d1
      loadDepartments c1 (k + 1) (ds.map Department.toDict)) = _
    rw [loadFromFileDict_toDict d k (hv d (List.mem_cons_self d ds))]
    have hadd : c.addDepartment ⟨k, d.name, d.employees⟩ =
        .ok ⟨c.name, c.departments ++ [⟨k, d.name, d.employees⟩], c.projects⟩ := by
      unfold Company.addDepartment
      rw [if_neg]
      simp only [List.any_eq_true, not_exists]
      intro x hpair
      rcases hpair with ⟨hx, hbeq⟩
      have h1 := hr x hx
      have h2 : x.ref = k := by simpa using hbeq
      omega
    show (do
      let c1 ← c.addDepartment ⟨k, d.name, d.employees⟩
      loadDepartments c1 (k + 1) (ds.map Department.toDict)) = _
    rw [hadd]
    show loadDepartments ⟨c.name, c.departments ++ [⟨k, d.name, d.employees⟩], c.projects⟩
      (k + 1) (ds.map Department.toDict) = _
    rw [ih _ (k + 1) (fun x hx => hv x (List.mem_cons_of_mem _ hx)) (by
      intro x hx
      rcases List.mem_append.mp hx with hx | hx
      · have := hr x hx
        omega
      · rcases List.mem_singleton.mp hx with rfl
        simp)]
    rw [List.append_assoc]
    rfl

end Lab5

namespace Lab5

/-! ## C1: save/load round trip — projects and team relinking -/

/-- The scalar fields of a project together with its team's ids — exactly what
the round-trip claim compares. -/
def projSummary (p : Project) : Int × String × String × Date × String × List Int :=
  (p.projectId, p.name, p.description, p.deadline, p.status, p.team.map Emp.id)

/-- Helper: `Project.from_dict` restores a valid project's scalar fields, with a
fresh identity and an empty team. -/
lemma projectFromDict_toDict (p : Project) (k : Nat) (h : p.validB = true) :
    Project.fromDict k p.toDict =
      .ok (Project.mk k p.projectId p.name p.description p.deadline p.status []) := by
  simp only [Project.validB, Bool.and_eq_true_iff, decide_eq_true_eq, Bool.not_eq_true'] at h
  obtain ⟨⟨⟨⟨hid, hn⟩, hdate⟩, hstat⟩, hteam⟩ := h
  unfold Project.fromDict Project.toDict mkProject
  dsimp only [Option.getD_some]
  rw [if_neg (not_le.mpr hid), if_neg (by simp [hn])]
  rw [parseDate_printDate p.deadline hdate]
  dsimp only
  rw [if_pos hstat]

/-- Helper: replacing the first matching project by the found project itself is
the identity. -/
lemma updateFirstProj_self : ∀ (ps : List Project) (pid : Int) (p0 : Project),
    ps.find? (fun p => p.projectId == pid) = some p0 →
    updateFirstProjById ps pid p0 = ps := by
  intro ps
  induction ps with
  | nil => intro pid p0 h; cases h
  | cons p ps ih =>
    intro pid p0 h
    rw [List.find?_cons] at h
    unfold updateFirstProjById
    cases hp : (p.projectId == pid) with
    | true =>
      rw [hp] at h
      injection h with h
      subst h
      rw [if_pos rfl]
    | false =>
      rw [hp] at h
      rw [if_neg (by simp [hp])]
      rw [ih pid p0 h]

/-- Helper: after replacing the first matching project, the first match is the
replacement. -/
lemma find?_updateFirstProj : ∀ (ps : List Project) (pid : Int) (p0 p1 : Project),
    ps.find? (fun p => p.projectId == pid) = some p0 →
    (p1.projectId == pid) = true →
    (updateFirstProjById ps pid p1).find? (fun p => p.projectId == pid) = some p1 := by
  intro ps
  induction ps with
  | nil => intro pid p0 p1 h _; cases h
  | cons p ps ih =>
    intro pid p0 p1 h h1
    rw [List.find?_cons] at h
    unfold updateFirstProjById
    cases hp : (p.projectId == pid) with
    | true =>
      rw [if_pos rfl]
      rw [List.find?_cons, h1]
    | false =>
      rw [hp] at h
      rw [if_neg (by simp [hp])]
      rw [List.find?_cons, hp]
      exact ih pid p0 p1 h h1

/-- Helper: two successive first-match replacements collapse to the second. -/
lemma updateFirstProj_compose : ∀ (ps : List Project) (pid : Int) (p1 p2 : Project),
    (p1.projectId == pid) = true →
    updateFirstProjById (updateFirstProjById ps pid p1) pid p2 =
      updateFirstProjById ps pid p2 := by
  intro ps
  induction ps with
  | nil => intro pid p1 p2 _; rfl
  | cons p ps ih =>
    intro pid p1 p2 h1
    by_cases hp : (p.projectId == pid) = true
    · have e1 : updateFirstProjById (p :: ps) pid p1 = p1 :: ps := by
        unfold updateFirstProjById
        rw [if_pos hp]
      have e2 : updateFirstProjById (p1 :: ps) pid p2 = p2 :: ps := by
        unfold updateFirstProjById
        rw [if_pos h1]
      have e3 : updateFirstProjById (p :: ps) pid p2 = p2 :: ps := by
        unfold updateFirstProjById
        rw [if_pos hp]
      rw [e1, e2, e3]
    · have e1 : updateFirstProjById (p :: ps) pid p1 = p :: updateFirstProjById ps pid p1 := by
        simp only [updateFirstProjById]
        rw [if_neg hp]
      have e2 : updateFirstProjById (p :: ps) pid p2 = p :: updateFirstProjById ps pid p2 := by
        simp only [updateFirstProjById]
        rw [if_neg hp]
      have e3 : updateFirstProjById (p :: updateFirstProjById ps pid p1) pid p2 =
          p :: updateFirstProjById (updateFirstProjById ps pid p1) pid p2 := by
        simp only [updateFirstProjById]
        rw [if_neg hp]
      rw [e1, e3, ih pid p1 p2 h1, e2]

/-- Helper: replacing within `front ++ [pl]` when the front has no match
replaces `pl`. -/
lemma updateFirstProj_append : ∀ (ps : List Project) (pid : Int) (pl p1 : Project),
    (∀ p ∈ ps, (p.projectId == pid) = false) →
    (pl.projectId == pid) = true →
    updateFirstProjById (ps ++ [pl]) pid p1 = ps ++ [p1] := by
  intro ps
  induction ps with
  | nil =>
    intro pid pl p1 _ hl
    rw [List.nil_append, List.nil_append]
    simp only [updateFirstProjById]
    rw [if_pos hl]
  | cons p ps ih =>
    intro pid pl p1 hfront hl
    rw [List.cons_append, List.cons_append]
    simp only [updateFirstProjById]
    rw [if_neg (by simp [hfront p (List.mem_cons_self p ps)])]
    rw [ih pid pl p1 (fun q hq => hfront q (List.mem_cons_of_mem _ hq)) hl]

/-- Helper: searching `front ++ [pl]` when the front has no match finds `pl`. -/
lemma find?_append_last : ∀ (ps : List Project) (pid : Int) (pl : Project),
    (∀ p ∈ ps, (p.projectId == pid) = false) →
    (pl.projectId == pid) = true →
    (ps ++ [pl]).find? (fun p => p.projectId == pid) = some pl := by
  intro ps
  induction ps with
  | nil =>
    intro pid pl _ hl
    rw [List.nil_append, List.find?_cons, hl]
  | cons p ps ih =>
    intro pid pl hfront hl
    rw [List.cons_append, List.find?_cons, hfront p (List.mem_cons_self p ps)]
    exact ih pid pl (fun q hq => hfront q (List.mem_cons_of_mem _ hq)) hl

end Lab5

namespace Lab5

/-- Helper: a successful `assign_employee_to_project` appends the looked-up
employee to the first project carrying the id. -/
lemma assign_ok (c : Company) (i pid : Int) (x : Emp) (p0 : Project)
    (hfind : c.findEmployeeById i = some x)
    (hproj : c.findProjectById pid = some p0)
    (hfree : p0.team.any (fun t => t.eqById x) = false) :
    c.assignEmployeeToProject i pid =
      .ok (Company.mk c.name c.departments
        (updateFirstProjById c.projects pid
          (Project.mk p0.ref p0.projectId p0.name p0.description p0.deadline p0.status
            (p0.team ++ [x])))) := by
  unfold Company.assignEmployeeToProject
  rw [hfind, hproj]
  dsimp only
  unfold Project.addTeamMember
  rw [if_neg (by simp [hfree])]

/-- Helper: relinking serialized team members whose ids all resolve appends, in
order, one looked-up employee per original member, with matching ids. -/
lemma relinkTeam_resolvable : ∀ (ts : List Emp) (c : Company) (pid : Int) (p0 : Project),
    c.findProjectById pid = some p0 →
    (∀ e ∈ ts, ∃ x, c.findEmployeeById e.id = some x ∧ x.id = e.id) →
    (∀ e ∈ ts, 0 < e.id) →
    (∀ e ∈ ts, (p0.team.map Emp.id).contains e.id = false) →
    nodupB (ts.map Emp.id) = true →
    ∃ t1, relinkTeam c pid (ts.map Emp.toDict) =
        .ok (Company.mk c.name c.departments
          (updateFirstProjById c.projects pid
            (Project.mk p0.ref p0.projectId p0.name p0.description p0.deadline p0.status
              (p0.team ++ t1)))) ∧
      t1.map Emp.id = ts.map Emp.id := by
  intro ts
  induction ts with
  | nil =>
    intro c pid p0 hproj _ _ _ _
    refine ⟨[], ?_, rfl⟩
    have hself : updateFirstProjById c.projects pid p0 = c.projects := by
      apply updateFirstProj_self
      exact hproj
    rw [List.append_nil]
    show Except.ok c = _
    rw [hself]
  | cons e ts ih =>
    intro c pid p0 hproj hres hpos hfree hnd
    obtain ⟨x, hx, hxid⟩ := hres e (List.mem_cons_self e ts)
    have hpid : (p0.projectId == pid) = true := by
      have := List.find?_some hproj
      simpa using this
    have hefree : (p0.team.map Emp.id).contains e.id = false :=
      hfree e (List.mem_cons_self e ts)
    have hanyfree : p0.team.any (fun t => t.eqById x) = false := by
      simp only [Emp.eqById]
      rw [any_id_eq_contains p0.team x.id, hxid, hefree]
    have hassign := assign_ok c e.id pid x p0 hx hproj hanyfree
    have hrel1 : relinkOne c pid e.toDict =
        .ok (Company.mk c.name c.departments
          (updateFirstProjById c.projects pid
            (Project.mk p0.ref p0.projectId p0.name p0.description p0.deadline p0.status
              (p0.team ++ [x])))) := by
      have hz : (e.id == 0) = false := by
        apply beq_eq_false_iff_ne.mpr
        have := hpos e (List.mem_cons_self e ts)
        omega
      unfold relinkOne
      rw [toDict_id e]
      dsimp only
      rw [if_neg (by simp [hz])]
      rw [hassign]
    have hstep : relinkTeam c pid (e.toDict :: ts.map Emp.toDict) =
        relinkTeam (Company.mk c.name c.departments
          (updateFirstProjById c.projects pid
            (Project.mk p0.ref p0.projectId p0.name p0.description p0.deadline p0.status
              (p0.team ++ [x])))) pid (ts.map Emp.toDict) := by
      show (do
        let c1 ← relinkOne c pid e.toDict
        relinkTeam c1 pid (ts.map Emp.toDict)) = _
      rw [hrel1]
      rfl
    have hnd1 : nodupB (ts.map Emp.id) = true := by
      rw [List.map_cons, nodupB] at hnd
      exact (Bool.and_eq_true_iff.mp hnd).2
    have hhead : (ts.map Emp.id).contains e.id = false := by
      rw [List.map_cons, nodupB] at hnd
      have h1 := (Bool.and_eq_true_iff.mp hnd).1
      cases hc : (ts.map Emp.id).contains e.id
      · rfl
      · rw [hc] at h1
        cases h1
    obtain ⟨t1, heq, hids⟩ := ih
      (Company.mk c.name c.departments
        (updateFirstProjById c.projects pid
          (Project.mk p0.ref p0.projectId p0.name p0.description p0.deadline p0.status
            (p0.team ++ [x])))) pid
      (Project.mk p0.ref p0.projectId p0.name p0.description p0.deadline p0.status
        (p0.team ++ [x]))
      (by
        show (updateFirstProjById c.projects pid _).find? _ = _
        exact find?_updateFirstProj c.projects pid p0 _ hproj hpid)
      (fun e1 he1 => hres e1 (List.mem_cons_of_mem _ he1))
      (fun e1 he1 => hpos e1 (List.mem_cons_of_mem _ he1))
      (by
        intro e1 he1
        show ((p0.team ++ [x]).map Emp.id).contains e1.id = false
        rw [List.map_append]
        have h1 : (p0.team.map Emp.id).contains e1.id = false :=
          hfree e1 (List.mem_cons_of_mem _ he1)
        have h2 : e1.id ≠ e.id := by
          intro hcon
          have hmem : e1.id ∈ ts.map Emp.id := List.mem_map_of_mem Emp.id he1
          rw [hcon] at hmem
          have hc3 : (ts.map Emp.id).contains e.id = true := List.elem_iff.mpr hmem
          rw [hc3] at hhead
          cases hhead
        cases hc : ((p0.team.map Emp.id) ++ [x].map Emp.id).contains e1.id
        · rfl
        · exfalso
          have hmem := List.elem_iff.mp hc
          rcases List.mem_append.mp hmem with hm | hm
          · have hc4 : (p0.team.map Emp.id).contains e1.id = true := List.elem_iff.mpr hm
            rw [hc4] at h1
            cases h1
          · simp only [List.map_cons, List.map_nil, List.mem_singleton] at hm
            rw [hxid] at hm
            exact h2 hm)
      hnd1
    refine ⟨x :: t1, ?_, ?_⟩
    · rw [List.map_cons, hstep, heq]
      have hcomp := updateFirstProj_compose c.projects pid
        (Project.mk p0.ref p0.projectId p0.name p0.description p0.deadline p0.status
          (p0.team ++ [x]))
        (Project.mk p0.ref p0.projectId p0.name p0.description p0.deadline p0.status
          (p0.team ++ [x] ++ t1)) hpid
      rw [hcomp, List.append_assoc, List.singleton_append]
    · rw [List.map_cons, hxid, hids]
      rfl

end Lab5

namespace Lab5

/-- Helper: the project-loading loop appends faithfully rebuilt projects: scalar
fields survive exactly and the relinked team carries the original ids in
order. -/
lemma loadProjects_toDict : ∀ (ps : List Project) (c : Company) (k : Nat),
    (∀ p ∈ ps, p.validB = true) →
    (∀ p ∈ ps, ∀ e ∈ p.team, ∃ x, c.findEmployeeById e.id = some x ∧ x.id = e.id) →
    (∀ p ∈ ps, ∀ e ∈ p.team, 0 < e.id) →
    (∀ q ∈ c.projects, q.ref < k) →
    nodupB (c.projects.map Project.projectId ++ ps.map Project.projectId) = true →
    ∃ qs, loadProjects c k (ps.map Project.toDict) =
        .ok (Company.mk c.name c.departments (c.projects ++ qs)) ∧
      qs.map projSummary = ps.map projSummary := by
  intro ps
  induction ps with
  | nil =>
    intro c k _ _ _ _ _
    refine ⟨[], ?_, rfl⟩
    rw [List.append_nil]
    rfl
  | cons p ps ih =>
    intro c k hv hres hpos href hnd
    have hpv := hv p (List.mem_cons_self p ps)
    have hteamnodup : nodupB (p.team.map Emp.id) = true := by
      simp only [Project.validB, Bool.and_eq_true_iff] at hpv
      exact hpv.2
    have hndshape : c.projects.map Project.projectId ++
        (p :: ps).map Project.projectId =
        c.projects.map Project.projectId ++
          p.projectId :: ps.map Project.projectId := by
      rw [List.map_cons]
    rw [hndshape] at hnd
    have hfrontpid : (c.projects.map Project.projectId).contains p.projectId = false :=
      nodupB_append_cons_contains _ _ _ hnd
    have hfront : ∀ q ∈ c.projects, (q.projectId == p.projectId) = false := by
      intro q hq
      apply beq_eq_false_iff_ne.mpr
      intro hcon
      have hmem : p.projectId ∈ c.projects.map Project.projectId := by
        rw [← hcon]
        exact List.mem_map_of_mem _ hq
      have hc2 : (c.projects.map Project.projectId).contains p.projectId = true :=
        List.elem_iff.mpr hmem
      rw [hc2] at hfrontpid
      cases hfrontpid
    have hfindnone : c.projects.find? (fun q => q.projectId == p.projectId) = none :=
      List.find?_eq_none.mpr (fun q hq => by simp [hfront q hq])
    have hanyref : (c.projects.any fun x => x.ref == k) = false := by
      rw [List.any_eq_false]
      intro q hq
      have := href q hq
      simp only [beq_iff_eq]
      omega
    have hadd : c.addProject (Project.mk k p.projectId p.name p.description p.deadline p.status []) =
        .ok (Company.mk c.name c.departments
          (c.projects ++ [Project.mk k p.projectId p.name p.description p.deadline p.status []])) := by
      unfold Company.addProject Company.findProjectById
      dsimp only
      rw [hanyref, hfindnone]
      rw [if_neg (by simp), if_neg (by simp)]
    have hstep1 : loadProjects c k (p.toDict :: ps.map Project.toDict) =
        (do
          let c2 ← relinkTeam
            (Company.mk c.name c.departments
              (c.projects ++ [Project.mk k p.projectId p.name p.description p.deadline p.status []]))
            p.projectId (p.team.map Emp.toDict)
          loadProjects c2 (k + 1) (ps.map Project.toDict)) := by
      show (do
        let p1 ← Project.fromDict k p.toDict
        let c1 ← c.addProject p1
        let c2 ← relinkTeam c1 p1.projectId (p.toDict).team
        loadProjects c2 (k + 1) (ps.map Project.toDict)) = _
      rw [projectFromDict_toDict p k hpv]
      show (do
        let c1 ← c.addProject (Project.mk k p.projectId p.name p.description p.deadline p.status [])
        let c2 ← relinkTeam c1 p.projectId (p.toDict).team
        loadProjects c2 (k + 1) (ps.map Project.toDict)) = _
      rw [hadd]
      rfl
    obtain ⟨t1, heq, hids⟩ := relinkTeam_resolvable p.team
      (Company.mk c.name c.departments
        (c.projects ++ [Project.mk k p.projectId p.name p.description p.deadline p.status []]))
      p.projectId
      (Project.mk k p.projectId p.name p.description p.deadline p.status [])
      (by
        show ((c.projects ++ [Project.mk k p.projectId p.name p.description p.deadline p.status []]).find?
          (fun q => q.projectId == p.projectId)) = _
        exact find?_append_last c.projects p.projectId _ hfront (by simp))
      (fun e he => hres p (List.mem_cons_self p ps) e he)
      (fun e he => hpos p (List.mem_cons_self p ps) e he)
      (fun e _ => rfl)
      hteamnodup
    have hupd : updateFirstProjById
        (c.projects ++ [Project.mk k p.projectId p.name p.description p.deadline p.status []])
        p.projectId
        (Project.mk k p.projectId p.name p.description p.deadline p.status ([] ++ t1)) =
        c.projects ++ [Project.mk k p.projectId p.name p.description p.deadline p.status t1] := by
      rw [updateFirstProj_append c.projects p.projectId _ _ hfront (by simp)]
      rw [List.nil_append]
    obtain ⟨qs, heq2, hsum⟩ := ih
      (Company.mk c.name c.departments
        (c.projects ++ [Project.mk k p.projectId p.name p.description p.deadline p.status t1]))
      (k + 1)
      (fun q hq => hv q (List.mem_cons_of_mem _ hq))
      (fun q hq e he => hres q (List.mem_cons_of_mem _ hq) e he)
      (fun q hq e he => hpos q (List.mem_cons_of_mem _ hq) e he)
      (by
        intro q hq
        rcases List.mem_append.mp hq with hq | hq
        · have := href q hq
          omega
        · rcases List.mem_singleton.mp hq with rfl
          simp)
      (by
        show nodupB ((c.projects ++ [Project.mk k p.projectId p.name p.description p.deadline p.status t1]).map
          Project.projectId ++ ps.map Project.projectId) = true
        have hshape2 : (c.projects ++ [Project.mk k p.projectId p.name p.description p.deadline p.status t1]).map
            Project.projectId ++ ps.map Project.projectId =
            c.projects.map Project.projectId ++ p.projectId :: ps.map Project.projectId := by
          rw [List.map_append]
          rw [List.append_assoc]
          rfl
        rw [hshape2]
        exact hnd)
    refine ⟨Project.mk k p.projectId p.name p.description p.deadline p.status t1 :: qs, ?_, ?_⟩
    · rw [List.map_cons, hstep1]
      show (do
        let c2 ← relinkTeam
          (Company.mk c.name c.departments
            (c.projects ++ [Project.mk k p.projectId p.name p.description p.deadline p.status []]))
          p.projectId (p.team.map Emp.toDict)
        loadProjects c2 (k + 1) (ps.map Project.toDict)) = _
      rw [heq]
      show loadProjects
        (Company.mk c.name c.departments
          (updateFirstProjById
            (c.projects ++ [Project.mk k p.projectId p.name p.description p.deadline p.status []])
            p.projectId
            (Project.mk k p.projectId p.name p.description p.deadline p.status ([] ++ t1))))
        (k + 1) (ps.map Project.toDict) = _
      rw [hupd, heq2]
      rw [List.append_assoc]
      rfl
    · rw [List.map_cons, hsum]
      show (p.projectId, p.name, p.description, p.deadline, p.status, t1.map Emp.id) ::
        ps.map projSummary = _
      rw [hids]
      rfl

end Lab5

namespace Lab5

/-- Helper: every validly constructed employee has a positive id. -/
lemma validB_id_pos (e : Emp) (h : e.validB = true) : 0 < e.id := by
  rcases e with ⟨i, n, d, b⟩ | ⟨i, n, d, b, bo⟩ | ⟨i, n, d, b, ts, lvl⟩ | ⟨i, n, d, b, r, v⟩ <;>
    simp only [Emp.validB, Bool.and_eq_true_iff, decide_eq_true_eq] at h
  · exact h.1.1.1
  · exact h.1.1.1.1
  · exact h.1.1.1.1.1
  · exact h.1.1.1.1.1.1

/-- C1 (amended): whenever every project team member's id is held by some
department — the only situation in which the relink loop can resolve it —
`load_from_json (save_to_json c)` succeeds and reproduces the company: equal
name, equal department names and employee lists in order (ids, variant tags and
variant fields included), and for every project equal scalar fields
(project_id, name, description, deadline, status) and the same team-member ids
in order. -/
theorem save_load_round_trip (c : Company)
    (hv : c.validB = true) (hres : c.teamsResolvableB = true) :
    ∃ c1, Company.loadFromJson c.saveToJson = .ok c1 ∧
      c1.name = c.name ∧
      c1.departments.map (fun d => (d.name, d.employees)) =
        c.departments.map (fun d => (d.name, d.employees)) ∧
      c1.projects.map projSummary = c.projects.map projSummary := by
  simp only [Company.validB, Bool.and_eq_true_iff, Bool.not_eq_true'] at hv
  obtain ⟨⟨⟨hn, hd⟩, hp⟩, hnd⟩ := hv
  have hdvalid : ∀ d1 ∈ c.departments, d1.validB = true := List.all_eq_true.mp hd
  have hpvalid : ∀ p1 ∈ c.projects, p1.validB = true := List.all_eq_true.mp hp
  have hresolve : ∀ p1 ∈ c.projects, ∀ e ∈ p1.team,
      ∃ d1 ∈ c.departments, ∃ x ∈ d1.employees, x.id = e.id := by
    simp only [Company.teamsResolvableB, List.all_eq_true, List.any_eq_true,
      beq_iff_eq] at hres
    intro p1 hp1 e he
    obtain ⟨d1, hd1, x, hx, hxe⟩ := hres p1 hp1 e he
    exact ⟨d1, hd1, x, hx, hxe⟩
  have hfindres : ∀ p1 ∈ c.projects, ∀ e ∈ p1.team,
      ∃ x, findEmpInDepts (reRefDepts 0 c.departments) e.id = some x ∧ x.id = e.id := by
    intro p1 hp1 e he
    obtain ⟨x1, hfind, hid⟩ :=
      findEmpInDepts_isSome c.departments e.id (hresolve p1 hp1 e he)
    rw [findEmpInDepts_reRef]
    exact ⟨x1, hfind, hid⟩
  have hpose : ∀ p1 ∈ c.projects, ∀ e ∈ p1.team, 0 < e.id := by
    intro p1 hp1 e he
    obtain ⟨d1, hd1, x, hx, hxe⟩ := hresolve p1 hp1 e he
    have hdv := hdvalid d1 hd1
    simp only [Department.validB, Bool.and_eq_true_iff] at hdv
    have hxv : x.validB = true := List.all_eq_true.mp hdv.1.2 x hx
    have := validB_id_pos x hxv
    omega
  have hmk : mkCompany c.name = .ok (Company.mk c.name [] []) := by
    unfold mkCompany
    rw [if_neg (by simp [hn])]
  have hload : Company.loadFromJson c.saveToJson =
      loadProjects (Company.mk c.name (reRefDepts 0 c.departments) []) 0
        (c.projects.map Project.toDict) := by
    unfold Company.loadFromJson Company.saveToJson
    dsimp only
    show (do
      let c0 ← mkCompany c.name
      let c1 ← loadDepartments c0 0 (c.departments.map Department.toDict)
      loadProjects c1 0 (c.projects.map Project.toDict)) = _
    rw [hmk]
    show (do
      let c1 ← loadDepartments (Company.mk c.name [] []) 0 (c.departments.map Department.toDict)
      loadProjects c1 0 (c.projects.map Project.toDict)) = _
    rw [loadDepartments_toDict c.departments (Company.mk c.name [] []) 0 hdvalid
      (by intro d1 hd1; simp at hd1)]
    rw [List.nil_append]
    rfl
  obtain ⟨qs, heq2, hsum⟩ := loadProjects_toDict c.projects
    (Company.mk c.name (reRefDepts 0 c.departments) []) 0 hpvalid
    hfindres hpose
    (by intro q hq; simp at hq)
    (by simpa using hnd)
  refine ⟨Company.mk c.name (reRefDepts 0 c.departments) ([] ++ qs), ?_, rfl, ?_, ?_⟩
  · rw [hload, heq2]
  · exact reRefDepts_names c.departments 0
  · show ([] ++ qs).map projSummary = _
    rw [List.nil_append]
    exact hsum

/-- The company used to exhibit C1: employee 9 sits on the project team but in
no department, so its id cannot be resolved at load time. -/
def cGhost : Company :=
  ⟨"Acme", [⟨0, "Dev", [.employee 1 "Ann" "Dev" 100]⟩],
   [⟨0, 1, "P1", "d", ⟨2024, 1, 5⟩, "active",
     [.employee 9 "Gus" "X" 1, .employee 1 "Ann" "Dev" 100]⟩]⟩

/-- Counterexample for C1 as stated: on a valid reachable company whose project
team holds an employee absent from every department, the reloaded company's
team has lost id 9 — the team id sets are not equal, so the unconditional
round-trip claim fails (the rest of the graph does survive). -/
theorem save_load_drops_dangling_team_member :
    cGhost.validB = true ∧
    cGhost.projects.map (fun p => p.team.map Emp.id) = [[9, 1]] ∧
    Company.loadFromJson cGhost.saveToJson =
      .ok ⟨"Acme", [⟨0, "Dev", [.employee 1 "Ann" "Dev" 100]⟩],
        [⟨0, 1, "P1", "d", ⟨2024, 1, 5⟩, "active", [.employee 1 "Ann" "Dev" 100]⟩]⟩ := by
  refine ⟨by decide, by decide, by decide⟩

/-- A concrete resolvable company exercising all four employee variants. -/
def cRound : Company :=
  ⟨"Acme",
   [⟨0, "Dev", [.employee 1 "Ann" "Dev" 100, .manager 2 "Bob" "Dev" 200 50,
      .developer 3 "Cid" "Dev" 100 ["python"] "middle"]⟩,
    ⟨1, "Sales", [.salesperson 4 "Dia" "Sales" 100 1 10]⟩],
   [⟨0, 1, "P1", "desc", ⟨2024, 1, 5⟩, "active",
     [.employee 1 "Ann" "Dev" 100, .salesperson 4 "Dia" "Sales" 100 1 10]⟩]⟩

/-- Witness for C1 (amended) at a concrete fully resolvable company. -/
theorem save_load_round_trip_witness :
    ∃ c1, Company.loadFromJson cRound.saveToJson = .ok c1 ∧
      c1.name = cRound.name ∧
      c1.departments.map (fun d => (d.name, d.employees)) =
        cRound.departments.map (fun d => (d.name, d.employees)) ∧
      c1.projects.map projSummary = cRound.projects.map projSummary :=
  save_load_round_trip cRound (by decide) (by decide)

end Lab5
